import Mathlib

/-!
# timenow: the timezone-offset parser and the time formatter

A shallow embedding of `pkg/timenow/timenow.go` (the functions `ParseTZ` and
`GetTimeNow`) and of the flag logic of `cmd/timenow/main.go`.

Conventions of the embedding

* A Go string is the list of its runes (`String` / `List Char`); the inputs
  covered are therefore the valid UTF-8 strings. `len` is the UTF-8 byte
  length, as in Go.
* Go's `int` is the 64-bit two's-complement integer: arithmetic results are
  reduced with `wrap64`.
* Go's `float64` arithmetic is modelled exactly (round to nearest, ties to
  even) on the finite non-negative values, the only ones `ParseTZ` meets.
* The functions of Go's standard library that the package calls
  (`strings.TrimSpace`, `strings.SplitN`, `strconv.Atoi`, `strconv.Quote`, ...)
  are modelled from their documented behaviour. The Unicode tables behind
  `strconv.IsPrint` and `unicode.ToLower` (beyond Latin-1 and ASCII) and the
  layout renderer `time.Time.Format` are parameters.
* The wall clock is an explicit state (`Clock`): each call of `time.Now`
  takes the next reading.
-/

namespace timenow

/-! ## Machine integers -/

/-- Two's-complement reduction of an integer to Go's 64-bit `int`. -/
def wrap64 (x : Int) : Int := (x + 2 ^ 63) % 2 ^ 64 - 2 ^ 63

/-! ## Strings -/

/-- Go's `unicode.IsSpace`: the Unicode White_Space code points. -/
def isSpace (c : Char) : Bool :=
  let n := c.toNat
  n = 0x09 || n = 0x0A || n = 0x0B || n = 0x0C || n = 0x0D || n = 0x20 ||
  n = 0x85 || n = 0xA0 || n = 0x1680 || (0x2000 ≤ n && n ≤ 0x200A) ||
  n = 0x2028 || n = 0x2029 || n = 0x202F || n = 0x205F || n = 0x3000

/-- Go's `strings.TrimSpace`: the string without its leading and trailing
white space. -/
def TrimSpace (s : List Char) : List Char :=
  List.rdropWhile isSpace (List.dropWhile isSpace s)

/-- Go's built-in `len` on a string: the number of bytes of its UTF-8 form. -/
def len (s : List Char) : Nat := (s.map Char.utf8Size).sum

/-- Go's `strings.Contains(s, sep)` for a one-character separator. -/
def Contains (s : List Char) (sep : Char) : Bool := decide (sep ∈ s)

/-- The text before and the text after the first occurrence of `sep`
(`strings.Index` followed by the two slicings of `genSplit`). -/
def cut (sep : Char) : List Char → Option (List Char × List Char)
  | [] => none
  | c :: cs =>
    if c = sep then some ([], cs)
    else match cut sep cs with
      | none => none
      | some (a, b) => some (c :: a, b)

/-- The loop of Go's `genSplit`: at most `k` cuts, then the rest. -/
def splitLoop (sep : Char) : Nat → List Char → List (List Char)
  | 0, s => [s]
  | k + 1, s =>
    match cut sep s with
    | none => [s]
    | some (a, b) => a :: splitLoop sep k b

/-- Go's `strings.SplitN(s, sep, n)` for a one-character separator and
`n ≥ 0`: `nil` for `n = 0`, otherwise at most `min n (len s + 1)` pieces, the
last one holding the unsplit remainder. -/
def SplitN (s : List Char) (sep : Char) (n : Nat) : List (List Char) :=
  if n = 0 then [] else splitLoop sep (min n (len s + 1) - 1) s

/-! ## strconv.Atoi -/

/-- The digit loop of `strconv.Atoi` / `strconv.ParseUint` in base 10:
`n = n*10 + (ch - '0')`, a syntax error on any byte that is not a decimal
digit. The value is kept unbounded here; the range test is made by `Atoi`. -/
def parseDigits : Nat → List Char → Option Nat
  | acc, [] => some acc
  | acc, c :: cs =>
    if 48 ≤ c.toNat ∧ c.toNat ≤ 57 then parseDigits (acc * 10 + (c.toNat - 48)) cs
    else none

/-- Go's `strconv.Atoi` on a 64-bit platform, `none` standing for a non-nil
error (syntax or range): an optional sign `+` or `-`, then one or more
decimal digits, the value within `[-2^63, 2^63 - 1]`. -/
def Atoi (s : List Char) : Option Int :=
  match s with
  | [] => none
  | c :: rest =>
    let neg := decide (c = '-')
    let ds := if c = '-' ∨ c = '+' then rest else s
    if ds = [] then none
    else match parseDigits 0 ds with
      | none => none
      | some v =>
        if neg then (if v ≤ 2 ^ 63 then some (-(v : Int)) else none)
        else (if v < 2 ^ 63 then some (v : Int) else none)

/-! ## float64 -/

/-- A finite non-negative `float64`: the value `mant * 2^exp`. -/
structure Float64 where
  mant : Nat
  exp : Int

/-- The number of binary digits of `n` (`fuel` bounds the loop). -/
def bitLenAux : Nat → Nat → Nat
  | 0, _ => 0
  | fuel + 1, n => if n = 0 then 0 else bitLenAux fuel (n / 2) + 1

/-- The number of binary digits of `n`; `bitLen 0 = 0`. -/
def bitLen (n : Nat) : Nat := bitLenAux n n

/-- The integer nearest to `num / den`, ties to the even one. -/
def roundHalfEven (num den : Nat) : Nat :=
  let m := num / den
  let r := num % den
  if 2 * r < den then m else if den < 2 * r then m + 1 else if m % 2 = 0 then m else m + 1

/-- The rational `n / d * 2^t` as a fraction of naturals, for an integer `t`. -/
def scaled (n d : Nat) (t : Int) : Nat × Nat :=
  if 0 ≤ t then (n * 2 ^ t.toNat, d) else (n, d * 2 ^ (-t).toNat)

/-- IEEE 754 rounding to `float64` (round to nearest, ties to even) of the
non-negative real `n / d * 2^e`, `d > 0`. The scale `t` is chosen so that
`n / d * 2^t` has 53 binary digits before the point, or fewer when the
result is subnormal (the exponent does not go below `-1074`). Overflow to
infinity is not modelled. -/
def Float64.round (n d : Nat) (e : Int) : Float64 :=
  let t0 : Int := 53 + (bitLen d : Int) - (bitLen n : Int)
  let q := (scaled n d t0).1 / (scaled n d t0).2
  let t1 : Int := if q < 2 ^ 53 then t0 else t0 - 1
  let t : Int := min t1 (e + 1074)
  ⟨roundHalfEven (scaled n d t).1 (scaled n d t).2, e - t⟩

/-- The `float64` of a natural number constant below `2^53`. -/
def Float64.ofNat (n : Nat) : Float64 := ⟨n, 0⟩

/-- The constant `0.5`. -/
def Float64.half : Float64 := ⟨1, -1⟩

/-- IEEE 754 multiplication. -/
def Float64.mul (x y : Float64) : Float64 :=
  Float64.round (x.mant * y.mant) 1 (x.exp + y.exp)

/-- IEEE 754 addition. -/
def Float64.add (x y : Float64) : Float64 :=
  let e := min x.exp y.exp
  Float64.round (x.mant * 2 ^ (x.exp - e).toNat + y.mant * 2 ^ (y.exp - e).toNat) 1 e

/-- The fused multiply-add `x*y + z`, rounded once. Go lets a compiler fuse
`f*60 + 0.5` into it on the architectures that have the instruction. -/
def Float64.fma (x y z : Float64) : Float64 :=
  let e := min (x.exp + y.exp) z.exp
  Float64.round
    (x.mant * y.mant * 2 ^ (x.exp + y.exp - e).toNat + z.mant * 2 ^ (z.exp - e).toNat) 1 e

/-- Go's conversion `int(f)`: the fraction is discarded. -/
def Float64.toInt (x : Float64) : Int :=
  ((scaled x.mant 1 x.exp).1 / (scaled x.mant 1 x.exp).2 : Nat)

/-- Go's `strconv.ParseFloat(s, 64)` on the strings `ParseTZ` passes to it,
`"0."` followed by one byte: the byte has to be a decimal digit `d` (a
second `.`, an exponent letter without digits, an underscore and any other
byte are syntax errors), and the result is the `float64` nearest to `d/10`. -/
def ParseFloat (s : List Char) : Option Float64 :=
  match s with
  | [c0, c1, c] =>
    if c0 = '0' ∧ c1 = '.' ∧ 48 ≤ c.toNat ∧ c.toNat ≤ 57 then
      some (Float64.round (c.toNat - 48) 10 0)
    else none
  | _ => none

/-! ## ParseTZ -/

/-- The error values `ParseTZ` builds with `fmt.Errorf`, one constructor per
format string; `input` is the argument of `%q`. -/
inductive TZError where
  /-- The `"invalid tz format: %q"` error. -/
  | invalidFormat (input : String)
  /-- The `"invalid hour in %q"` error. -/
  | invalidHour (input : String)
  /-- The `"invalid fraction in %q"` error. -/
  | invalidFraction (input : String)
  /-- The `"invalid minute in %q"` error. -/
  | invalidMinute (input : String)
  /-- The `"minute must be 0–59 in %q"` error. -/
  | minuteRange (input : String)
  /-- The `"timezone offset must be between -12h and +14h"` error. -/
  | outOfRange
deriving DecidableEq

/-- What a call of `ParseTZ` can do. -/
inductive Outcome where
  /-- The call `return total, nil`. -/
  | ok (minutes : Int)
  /-- The call `return 0, err`. -/
  | err (e : TZError)
  /-- A run-time panic: index out of range. -/
  | indexPanic
deriving DecidableEq

/-- The range check `total < -12*60 || total > 14*60` that ends each of the
three branches. -/
def rangeCheck (total : Int) : Outcome :=
  if total < -12 * 60 ∨ total > 14 * 60 then .err .outOfRange else .ok total

/-- The function `ParseTZ` of `pkg/timenow/timenow.go`. -/
def ParseTZ (input : String) : Outcome :=
  let s := TrimSpace input.data
  if s = [] then .ok 0 else
  match s.head? with
  | none => .indexPanic
  | some b0 =>
    -- extract sign
    let sign : Int := if b0 = '+' then 1 else if b0 = '-' then -1 else 1
    let s := if b0 = '+' then s.drop 1 else if b0 = '-' then s.drop 1 else s
    -- fractional or minute-literal via dot
    if Contains s '.' then
      let parts := SplitN s '.' 2
      if parts.length ≠ 2 then .err (.invalidFormat input) else
      match parts[0]?, parts[1]? with
      | some hStr, some frac =>
        match Atoi hStr with
        | none => .err (.invalidHour input)
        | some hours =>
          if len frac = 1 then
            match ParseFloat ('0' :: '.' :: frac) with
            | none => .err (.invalidFraction input)
            | some f =>
              let minutes := Float64.toInt (Float64.add (Float64.mul f (Float64.ofNat 60)) Float64.half)
              rangeCheck (wrap64 (sign * wrap64 (wrap64 (hours * 60) + minutes)))
          else if len frac = 2 then
            match Atoi frac with
            | none => .err (.invalidMinute input)
            | some m =>
              if m < 0 ∨ m ≥ 60 then .err (.minuteRange input)
              else rangeCheck (wrap64 (sign * wrap64 (wrap64 (hours * 60) + m)))
          else .err (.invalidFormat input)
      | _, _ => .indexPanic
    -- colon form h:mm
    else if Contains s ':' then
      let parts := SplitN s ':' 2
      if parts.length ≠ 2 then .err (.invalidFormat input) else
      match parts[0]?, parts[1]? with
      | some hStr, some mStr =>
        match Atoi hStr with
        | none => .err (.invalidHour input)
        | some hours =>
          match Atoi mStr with
          | none => .err (.invalidMinute input)
          | some minutes =>
            if minutes < 0 ∨ minutes ≥ 60 then .err (.minuteRange input)
            else rangeCheck (wrap64 (sign * wrap64 (wrap64 (hours * 60) + minutes)))
      | _, _ => .indexPanic
    -- bare hours only
    else
      match Atoi s with
      | none => .err (.invalidHour input)
      | some hours => rangeCheck (wrap64 (wrap64 (sign * hours) * 60))

/-- The dot branch of `ParseTZ` (lines 67-106), on the sign-stripped text. -/
def dotBranch (input : String) (sign : Int) (s : List Char) : Outcome :=
  let parts := SplitN s '.' 2
  if parts.length ≠ 2 then .err (.invalidFormat input) else
  match parts[0]?, parts[1]? with
  | some hStr, some frac =>
    match Atoi hStr with
    | none => .err (.invalidHour input)
    | some hours =>
      if len frac = 1 then
        match ParseFloat ('0' :: '.' :: frac) with
        | none => .err (.invalidFraction input)
        | some f =>
          let minutes := Float64.toInt (Float64.add (Float64.mul f (Float64.ofNat 60)) Float64.half)
          rangeCheck (wrap64 (sign * wrap64 (wrap64 (hours * 60) + minutes)))
      else if len frac = 2 then
        match Atoi frac with
        | none => .err (.invalidMinute input)
        | some m =>
          if m < 0 ∨ m ≥ 60 then .err (.minuteRange input)
          else rangeCheck (wrap64 (sign * wrap64 (wrap64 (hours * 60) + m)))
      else .err (.invalidFormat input)
  | _, _ => .indexPanic

/-- The colon branch of `ParseTZ` (lines 109-130), on the sign-stripped text. -/
def colonBranch (input : String) (sign : Int) (s : List Char) : Outcome :=
  let parts := SplitN s ':' 2
  if parts.length ≠ 2 then .err (.invalidFormat input) else
  match parts[0]?, parts[1]? with
  | some hStr, some mStr =>
    match Atoi hStr with
    | none => .err (.invalidHour input)
    | some hours =>
      match Atoi mStr with
      | none => .err (.invalidMinute input)
      | some minutes =>
        if minutes < 0 ∨ minutes ≥ 60 then .err (.minuteRange input)
        else rangeCheck (wrap64 (sign * wrap64 (wrap64 (hours * 60) + minutes)))
  | _, _ => .indexPanic

/-- The bare-hours branch of `ParseTZ` (lines 133-141), on the sign-stripped
text. -/
def bareBranch (input : String) (sign : Int) (s : List Char) : Outcome :=
  match Atoi s with
  | none => .err (.invalidHour input)
  | some hours => rangeCheck (wrap64 (wrap64 (sign * hours) * 60))

/-- The sign that `ParseTZ` reads off the first byte. -/
def signOf (b0 : Char) : Int := if b0 = '+' then 1 else if b0 = '-' then -1 else 1

/-- The text `ParseTZ` keeps once the sign byte is consumed. -/
def stripSign (s : List Char) : List Char :=
  match s with
  | [] => []
  | b0 :: rest => if b0 = '+' then rest else if b0 = '-' then rest else s

/-! ## Error messages -/

/-- The sixteen digits of `strconv`'s `lowerhex`. -/
def lowerhex (n : Nat) : Char := "0123456789abcdef".data.getD n '0'

/-- Go's `strconv.IsPrint`: decided directly on Latin-1, by the Unicode
tables (`table`) beyond. -/
def IsPrint (table : Char → Bool) (r : Char) : Bool :=
  let n := r.toNat
  if n ≤ 0xFF then
    if 0x20 ≤ n ∧ n < 0x7F then true
    else if 0xA1 ≤ n then decide (n ≠ 0xAD)
    else false
  else table r

/-- Go's `strconv.appendEscapedRune` with the double quote as quote
character (`ASCIIonly` and `graphicOnly` false). -/
def appendEscapedRune (table : Char → Bool) (r : Char) : List Char :=
  let n := r.toNat
  if r = '"' ∨ r = '\\' then ['\\', r]
  else if IsPrint table r then [r]
  else if n = 0x07 then ['\\', 'a']
  else if n = 0x08 then ['\\', 'b']
  else if n = 0x0C then ['\\', 'f']
  else if n = 0x0A then ['\\', 'n']
  else if n = 0x0D then ['\\', 'r']
  else if n = 0x09 then ['\\', 't']
  else if n = 0x0B then ['\\', 'v']
  else if n < 0x20 ∨ n = 0x7F then ['\\', 'x', lowerhex (n / 16), lowerhex (n % 16)]
  else if n < 0x10000 then
    '\\' :: 'u' :: [12, 8, 4, 0].map (fun s => lowerhex (n / 2 ^ s % 16))
  else
    '\\' :: 'U' :: [28, 24, 20, 16, 12, 8, 4, 0].map (fun s => lowerhex (n / 2 ^ s % 16))

/-- Go's `strconv.Quote`, which is what the verb `%q` prints for a string. -/
def Quote (table : Char → Bool) (s : String) : String :=
  ⟨'"' :: ((s.data.map (appendEscapedRune table)).flatten ++ ['"'])⟩

/-- The method `Error()` of the errors of `ParseTZ`: the text `fmt.Errorf`
built. -/
def TZError.Error (table : Char → Bool) : TZError → String
  | .invalidFormat input => "invalid tz format: " ++ Quote table input
  | .invalidHour input => "invalid hour in " ++ Quote table input
  | .invalidFraction input => "invalid fraction in " ++ Quote table input
  | .invalidMinute input => "invalid minute in " ++ Quote table input
  | .minuteRange input => "minute must be 0–59 in " ++ Quote table input
  | .outOfRange => "timezone offset must be between -12h and +14h"

/-! ## GetTimeNow -/

/-- The type `Config`. -/
structure Config where
  /-- Minutes east of UTC; a Go `int`. -/
  TimezoneOffsetMinutes : Int
  /-- One of "unix", "rfc3339", "ansic", "stamp", "stampmilli". -/
  Format : String

/-- The location of a `time.Time`. -/
inductive Location where
  | Local
  | UTC
deriving DecidableEq

/-- A `time.Time`: an instant, in nanoseconds since the Unix epoch, and the
location it is shown in. -/
structure Time where
  unixNano : Int
  loc : Location
deriving DecidableEq

/-- The method `Time.UTC`. -/
def Time.UTC (t : Time) : Time := ⟨t.unixNano, Location.UTC⟩

/-- The method `Time.Add` (the saturation at the ends of the representable
years is not modelled). -/
def Time.Add (t : Time) (d : Int) : Time := ⟨t.unixNano + d, t.loc⟩

/-- The method `Time.Unix`: whole seconds since the epoch. -/
def Time.Unix (t : Time) : Int := t.unixNano / 1000000000

/-- The constant `time.Minute`, a `time.Duration` in nanoseconds. -/
def Minute : Int := 60000000000

/-- The layout `time.RFC3339`. -/
def RFC3339 : String := "2006-01-02T15:04:05Z07:00"
/-- The layout `time.ANSIC`. -/
def ANSIC : String := "Mon Jan _2 15:04:05 2006"
/-- The layout `time.Stamp`. -/
def Stamp : String := "Jan _2 15:04:05"
/-- The layout `time.StampMilli`. -/
def StampMilli : String := "Jan _2 15:04:05.000"

/-- The wall clock: `readings k` is the instant (nanoseconds since the Unix
epoch) that the `k`-th call of `time.Now` observes, `reads` the number of
calls made so far. -/
structure Clock where
  readings : Nat → Int
  reads : Nat

/-- The call `time.Now()`: one more reading of the clock. -/
def Now (c : Clock) : Time × Clock :=
  (⟨c.readings c.reads, Location.Local⟩, ⟨c.readings, c.reads + 1⟩)

/-- A clock that shows the instant `t` at every reading. -/
def Clock.fixed (t : Int) : Clock := ⟨fun _ => t, 0⟩

/-- The parts of Go's library that `GetTimeNow` is parametric in. -/
structure Lib where
  /-- The method `time.Time.Format`. -/
  Format : Time → String → String
  /-- The function `unicode.ToLower` on the runes beyond ASCII. -/
  lowerTable : Char → Char

/-- Go's `unicode.ToLower`. -/
def toLowerRune (table : Char → Char) (r : Char) : Char :=
  if r.toNat ≤ 0x7F then
    if 65 ≤ r.toNat ∧ r.toNat ≤ 90 then Char.ofNat (r.toNat + 32) else r
  else table r

/-- Go's `strings.ToLower`. -/
def ToLower (lib : Lib) (s : String) : String := ⟨s.data.map (toLowerRune lib.lowerTable)⟩

/-- The loop of `fmt`'s integer formatting in base 10: the digits of `n`,
put in front of `acc`. -/
def decimalDigits : Nat → Nat → List Char → List Char
  | 0, _, acc => acc
  | fuel + 1, n, acc =>
    if n < 10 then Char.ofNat (48 + n) :: acc
    else decimalDigits fuel (n / 10) (Char.ofNat (48 + n % 10) :: acc)

/-- The call `fmt.Sprintf("%d", n)`. -/
def Sprintf_d (n : Int) : String :=
  if n < 0 then ⟨'-' :: decimalDigits (n.natAbs + 1) n.natAbs []⟩
  else ⟨decimalDigits (n.natAbs + 1) n.natAbs []⟩

/-- The function `GetTimeNow` of `pkg/timenow/timenow.go`: the text, the
error (`none` for `nil`, otherwise the message of `errors.New`) and the clock
after the call. -/
def GetTimeNow (lib : Lib) (cfg : Config) (c0 : Clock) : (String × Option String) × Clock :=
  -- We only apply the offset for non-unix outputs
  let (t0, c1) := Now c0
  let now := t0.UTC
  let now :=
    if ToLower lib cfg.Format ≠ "unix" then
      now.Add (wrap64 (wrap64 cfg.TimezoneOffsetMinutes * Minute))
    else now
  let tok := ToLower lib cfg.Format
  if tok = "unix" then
    let (t1, c2) := Now c1
    ((Sprintf_d t1.Unix, none), c2)
  else if tok = "rfc3339" then ((lib.Format now RFC3339, none), c1)
  else if tok = "ansic" then ((lib.Format now ANSIC, none), c1)
  else if tok = "stamp" then ((lib.Format now Stamp, none), c1)
  else if tok = "stampmilli" then ((lib.Format now StampMilli, none), c1)
  else
    let (t1, c2) := Now c1
    ((Sprintf_d t1.Unix, some "unknown format, defaulting to unix"), c2)

/-! ## Vocabulary of the statements -/

/-- The optional sign in front of an offset: none, `+` or `-`. -/
inductive Sign where
  | none
  | plus
  | minus
deriving DecidableEq

/-- The text of a sign. -/
def Sign.text : Sign → List Char
  | .none => []
  | .plus => ['+']
  | .minus => ['-']

/-- The factor a sign stands for: `+1`, `+1`, `-1`. -/
def Sign.factor : Sign → Int
  | .none => 1
  | .plus => 1
  | .minus => -1

/-- The character of a decimal digit. -/
def digitChar (d : Fin 10) : Char := Char.ofNat (48 + d.val)

/-- The string of a list of decimal digits, most significant first. -/
def digitText (ds : List (Fin 10)) : List Char := ds.map digitChar

/-- The number a list of decimal digits, most significant first, denotes. -/
def digitValue (ds : List (Fin 10)) : Nat := Nat.ofDigits 10 (ds.reverse.map Fin.val)

/-- Two outcomes agree: both are errors, or both are the same offset. -/
def Outcome.agree (a b : Outcome) : Prop :=
  (∃ e1 e2, a = .err e1 ∧ b = .err e2) ∨ (∃ m, a = .ok m ∧ b = .ok m)

/-- The text `sub` occurs in the text `s`. -/
def occursIn (sub s : String) : Prop := sub.data <:+: s.data

instance (sub s : String) : Decidable (occursIn sub s) := by
  unfold occursIn; infer_instance

/-- The input holds only printable ASCII characters other than the double
quote and the backslash: the characters `%q` prints as they are. -/
def plainASCII (s : String) : Prop :=
  ∀ c ∈ s.data, 0x20 ≤ c.toNat ∧ c.toNat < 0x7F ∧ c ≠ '"' ∧ c ≠ '\\'

instance (s : String) : Decidable (plainASCII s) := by
  unfold plainASCII; infer_instance

/-- The errors that carry the input `input` as their `%q` argument. -/
def carriesInput (e : TZError) (input : String) : Prop :=
  e = .invalidFormat input ∨ e = .invalidHour input ∨ e = .invalidFraction input ∨
    e = .invalidMinute input ∨ e = .minuteRange input

/-- The five tokens that select a format. -/
def knownFormats : List String := ["unix", "rfc3339", "ansic", "stamp", "stampmilli"]

/-- The text `ParseTZ` works on after trimming the input and consuming the
sign: the trimmed, sign-stripped remainder. -/
def remainder (input : String) : List Char := stripSign (TrimSpace input.data)

/-- Go's `strconv.ParseInt(s, 10, 64)`, `none` standing for a non-nil error:
the function `strconv.Atoi` falls back on, with the same texts accepted and
the same 64-bit range. -/
def ParseInt (s : String) : Option Int := Atoi s.data

/-- The layout `GetTimeNow` renders with for each of the four layout tokens. -/
def layoutOf (tok : String) : String :=
  if tok = "rfc3339" then RFC3339
  else if tok = "ansic" then ANSIC
  else if tok = "stamp" then Stamp
  else StampMilli

/-- The four tokens that select a layout of `time.Time.Format`. -/
def layoutFormats : List String := ["rfc3339", "ansic", "stamp", "stampmilli"]

/-! ## The decision logic of main -/

/-- The values of the four command-line flags of `cmd/timenow/main.go`
(`--timezone`, `--tz`, `--format`, `--f`) once `flag.Parse` has run; the
defaults are `""`, `""`, `"unix"` and `"unix"`. -/
structure Flags where
  tzFlag : String
  tzShort : String
  fmtFlag : String
  fmtShort : String

/-- The variable `tzInput` of `main`: the long form wins. -/
def Flags.tzInput (fl : Flags) : String :=
  if fl.tzFlag = "" then fl.tzShort else fl.tzFlag

/-- The variable `format` of `main`: the long form wins. -/
def Flags.format (fl : Flags) : String :=
  if fl.fmtFlag = "unix" ∧ fl.fmtShort ≠ "unix" then fl.fmtShort else fl.fmtFlag

/-- The condition `format == "unix" && tzInput != ""` under which `main`
prints `warning: timezone flag %q ignored when format=unix`. -/
def Flags.warnsTZIgnored (fl : Flags) : Bool :=
  decide (fl.format = "unix" ∧ fl.tzInput ≠ "")

/-! ## Basic facts -/

theorem wrap64_eq (x : Int) (h1 : -2 ^ 63 ≤ x) (h2 : x < 2 ^ 63) : wrap64 x = x := by
  unfold wrap64; omega

theorem ParseTZ_nil (input : String) (h : TrimSpace input.data = []) : ParseTZ input = .ok 0 := by
  simp [ParseTZ, h]

theorem ParseTZ_cons (input : String) (b0 : Char) (rest : List Char)
    (h : TrimSpace input.data = b0 :: rest) :
    ParseTZ input =
      if Contains (stripSign (b0 :: rest)) '.' then dotBranch input (signOf b0) (stripSign (b0 :: rest))
      else if Contains (stripSign (b0 :: rest)) ':' then
        colonBranch input (signOf b0) (stripSign (b0 :: rest))
      else bareBranch input (signOf b0) (stripSign (b0 :: rest)) := by
  have hs : stripSign (b0 :: rest)
      = if b0 = '+' then rest else if b0 = '-' then rest else b0 :: rest := rfl
  simp only [ParseTZ, h, hs, dotBranch, colonBranch, bareBranch, signOf, List.head?_cons,
    List.drop_one, List.tail_cons]
  simp

theorem rangeCheck_ok (t m : Int) (h : rangeCheck t = .ok m) : -720 ≤ m ∧ m ≤ 840 := by
  unfold rangeCheck at h
  split at h
  · cases h
  · injection h with h; omega

theorem dotBranch_ok (input : String) (sign : Int) (s : List Char) (m : Int)
    (h : dotBranch input sign s = .ok m) : -720 ≤ m ∧ m ≤ 840 := by
  unfold dotBranch at h
  simp only at h
  repeat' split at h
  all_goals first
    | exact rangeCheck_ok _ _ h
    | cases h

theorem colonBranch_ok (input : String) (sign : Int) (s : List Char) (m : Int)
    (h : colonBranch input sign s = .ok m) : -720 ≤ m ∧ m ≤ 840 := by
  unfold colonBranch at h
  simp only at h
  repeat' split at h
  all_goals first
    | exact rangeCheck_ok _ _ h
    | cases h

theorem bareBranch_ok (input : String) (sign : Int) (s : List Char) (m : Int)
    (h : bareBranch input sign s = .ok m) : -720 ≤ m ∧ m ≤ 840 := by
  unfold bareBranch at h
  repeat' split at h
  all_goals first
    | exact rangeCheck_ok _ _ h
    | cases h

/-- C1: whenever `ParseTZ` returns no error, the offset it returns lies
between -720 and 840 minutes, whichever of the three forms was used. -/
theorem ParseTZ_offset_in_range (input : String) (m : Int) (h : ParseTZ input = .ok m) :
    -720 ≤ m ∧ m ≤ 840 := by
  cases hs : TrimSpace input.data with
  | nil =>
    rw [ParseTZ_nil input hs] at h
    injection h with h; omega
  | cons b0 rest =>
    rw [ParseTZ_cons input b0 rest hs] at h
    split at h
    · exact dotBranch_ok _ _ _ _ h
    · split at h
      · exact colonBranch_ok _ _ _ _ h
      · exact bareBranch_ok _ _ _ _ h

theorem ParseTZ_offset_in_range_witness :
    ParseTZ "-12:00" = .ok (-720) ∧ (-720 : Int) ≤ -720 ∧ (-720 : Int) ≤ 840 :=
  ⟨by decide, ParseTZ_offset_in_range "-12:00" (-720) (by decide)⟩

/-! ## Digit strings -/

theorem digitChar_toNat (d : Fin 10) : (digitChar d).toNat = 48 + d.val := by
  revert d; decide

theorem digitChar_utf8Size (d : Fin 10) : (digitChar d).utf8Size = 1 := by
  revert d; decide

theorem digitChar_not_space (d : Fin 10) : isSpace (digitChar d) = false := by
  revert d; decide

theorem digitChar_ne (d : Fin 10) :
    digitChar d ≠ '+' ∧ digitChar d ≠ '-' ∧ digitChar d ≠ '.' ∧ digitChar d ≠ ':' := by
  revert d; decide

theorem digitValue_cons (d : Fin 10) (ds : List (Fin 10)) :
    digitValue (d :: ds) = d.val * 10 ^ ds.length + digitValue ds := by
  simp [digitValue, Nat.ofDigits_append, Nat.ofDigits_singleton]
  ring

theorem digitValue_nil : digitValue [] = 0 := by
  simp [digitValue]

theorem parseDigits_digitText (ds : List (Fin 10)) (acc : Nat) :
    parseDigits acc (digitText ds) = some (acc * 10 ^ ds.length + digitValue ds) := by
  induction ds generalizing acc with
  | nil => simp [digitText, parseDigits, digitValue_nil]
  | cons d ds ih =>
    have h := digitChar_toNat d
    have hd := d.isLt
    simp only [digitText, List.map_cons, parseDigits, h, digitValue_cons, List.length_cons]
    have ih2 := ih (acc * 10 + (48 + d.val - 48))
    simp only [digitText] at ih2
    rw [if_pos (by omega), ih2]
    congr 1
    have : 48 + d.val - 48 = d.val := by omega
    rw [this]; ring

theorem digitText_ne_nil (ds : List (Fin 10)) (h : ds ≠ []) : digitText ds ≠ [] := by
  cases ds with
  | nil => exact absurd rfl h
  | cons d ds => simp [digitText]

theorem Atoi_digitText (ds : List (Fin 10)) (h : ds ≠ []) :
    Atoi (digitText ds) = if digitValue ds < 2 ^ 63 then some (digitValue ds : Int) else none := by
  cases ds with
  | nil => exact absurd rfl h
  | cons d ds =>
    have hne := digitChar_ne d
    have hp := parseDigits_digitText (d :: ds) 0
    simp only [digitText, List.map_cons] at hp
    simp only [Atoi, digitText, List.map_cons, hne.1, hne.2.1, or_self, if_false, hp]
    simp

theorem len_digitText (ds : List (Fin 10)) : len (digitText ds) = ds.length := by
  induction ds with
  | nil => rfl
  | cons d ds ih =>
    simp only [len, digitText, List.map_cons, List.sum_cons, digitChar_utf8Size] at ih ⊢
    rw [ih]; simp; omega

theorem len_pos (c : Char) (s : List Char) : 1 ≤ len (c :: s) := by
  have := Char.utf8Size_pos c
  simp only [len, List.map_cons, List.sum_cons]
  omega

theorem len_nil : len [] = 0 := rfl

theorem len_cons (c : Char) (s : List Char) : len (c :: s) = c.utf8Size + len s := by
  simp [len]

theorem len_append (a b : List Char) : len (a ++ b) = len a + len b := by
  simp [len]

/-! ## Cutting and splitting -/

theorem cut_append (sep : Char) (a b : List Char) (h : sep ∉ a) :
    cut sep (a ++ sep :: b) = some (a, b) := by
  induction a with
  | nil => simp [cut]
  | cons c a ih =>
    have hc : c ≠ sep := fun e => h (by simp [e])
    have ha : sep ∉ a := fun e => h (by simp [e])
    simp [cut, hc, ih ha]

theorem cut_none (sep : Char) (s : List Char) (h : sep ∉ s) : cut sep s = none := by
  induction s with
  | nil => rfl
  | cons c s ih =>
    have hc : c ≠ sep := fun e => h (by simp [e])
    have hs : sep ∉ s := fun e => h (by simp [e])
    simp [cut, hc, ih hs]

theorem mem_split (sep : Char) (s : List Char) (h : sep ∈ s) :
    ∃ a b, s = a ++ sep :: b ∧ sep ∉ a := by
  induction s with
  | nil => simp at h
  | cons c s ih =>
    by_cases hc : c = sep
    · exact ⟨[], s, by simp [hc], by simp⟩
    · have hs : sep ∈ s := by
        rcases List.mem_cons.mp h with e | e
        · exact absurd e.symm hc
        · exact e
      obtain ⟨a, b, hab, hna⟩ := ih hs
      refine ⟨c :: a, b, by simp [hab], ?_⟩
      intro hm
      rcases List.mem_cons.mp hm with e | e
      · exact hc e.symm
      · exact hna e

theorem SplitN_two (sep : Char) (a b : List Char) (h : sep ∉ a) :
    SplitN (a ++ sep :: b) sep 2 = [a, b] := by
  have hl : 1 ≤ len (a ++ sep :: b) := by
    rw [len_append]; have := len_pos sep b; omega
  have hk : min 2 (len (a ++ sep :: b) + 1) - 1 = 1 := by omega
  simp [SplitN, hk, splitLoop, cut_append sep a b h]

theorem Contains_iff (s : List Char) (sep : Char) : Contains s sep = true ↔ sep ∈ s := by
  simp [Contains]

/-! ## Trimming -/

theorem dropWhile_append_of_head (p : Char → Bool) (a : List Char) (c : Char) (b : List Char)
    (hc : p c = false) : List.dropWhile p (a ++ c :: b) = List.dropWhile p a ++ c :: b := by
  induction a with
  | nil => simp [List.dropWhile, hc]
  | cons x a ih =>
    by_cases hx : p x = true
    · simp [List.dropWhile, hx, ih]
    · simp [List.dropWhile, hx]

theorem rdropWhile_of_last (p : Char → Bool) (a : List Char) (c : Char) (hc : p c = false) :
    List.rdropWhile p (a ++ [c]) = a ++ [c] := by
  rw [List.rdropWhile_concat]; simp [hc]

theorem TrimSpace_eq_self (s : List Char) (h : ∀ c ∈ s, isSpace c = false) : TrimSpace s = s := by
  unfold TrimSpace
  have h1 : List.dropWhile isSpace s = s := by
    cases s with
    | nil => rfl
    | cons c s => simp [List.dropWhile, h c (by simp)]
  rw [h1]
  rcases List.eq_nil_or_concat s with h2 | ⟨a, c, h2⟩
  · simp [h2, List.rdropWhile]
  · subst h2
    rw [List.concat_eq_append] at h ⊢
    exact rdropWhile_of_last _ _ _ (h c (by simp))

/-! ## The float computation of the one-digit fraction -/

set_option maxRecDepth 8000 in
theorem fracMinutes_digit (d : Fin 10) :
    Float64.toInt (Float64.add (Float64.mul (Float64.round d.val 10 0) (Float64.ofNat 60))
      Float64.half) = 6 * (d.val : Int) := by
  revert d; decide

set_option maxRecDepth 8000 in
theorem fracMinutes_digit_fused (d : Fin 10) :
    Float64.toInt (Float64.fma (Float64.round d.val 10 0) (Float64.ofNat 60) Float64.half)
      = 6 * (d.val : Int) := by
  revert d; decide

theorem ParseFloat_digit (d : Fin 10) :
    ParseFloat ['0', '.', digitChar d] = some (Float64.round d.val 10 0) := by
  have h := digitChar_toNat d
  have hd := d.isLt
  simp only [ParseFloat, h, true_and]
  rw [if_pos (by omega)]
  congr 2
  omega

/-! ## Inputs made of a sign, digits and one separator -/

theorem stripSign_signed (sg : Sign) (d : Fin 10) (rest : List Char) :
    ∃ b0 tl, sg.text ++ digitChar d :: rest = b0 :: tl ∧ signOf b0 = sg.factor ∧
      stripSign (b0 :: tl) = digitChar d :: rest := by
  have hne := digitChar_ne d
  cases sg with
  | none => exact ⟨digitChar d, rest, rfl, by simp [signOf, hne.1, hne.2.1, Sign.factor],
      by simp [stripSign, hne.1, hne.2.1]⟩
  | plus => exact ⟨'+', digitChar d :: rest, rfl, by simp [signOf, Sign.factor],
      by simp [stripSign]⟩
  | minus => exact ⟨'-', digitChar d :: rest, rfl, by simp [signOf, Sign.factor],
      by simp [stripSign]⟩

theorem sign_not_space (sg : Sign) : ∀ c ∈ sg.text, isSpace c = false := by
  cases sg <;> simp [Sign.text] <;> decide

theorem digitText_not_space (ds : List (Fin 10)) : ∀ c ∈ digitText ds, isSpace c = false := by
  intro c hc
  simp only [digitText, List.mem_map] at hc
  obtain ⟨d, _, rfl⟩ := hc
  exact digitChar_not_space d

theorem not_mem_digitText (ds : List (Fin 10)) (c : Char)
    (hc : c = '+' ∨ c = '-' ∨ c = '.' ∨ c = ':') : c ∉ digitText ds := by
  intro h
  simp only [digitText, List.mem_map] at h
  obtain ⟨d, _, rfl⟩ := h
  have hne := digitChar_ne d
  rcases hc with e | e | e | e
  · exact hne.1 e
  · exact hne.2.1 e
  · exact hne.2.2.1 e
  · exact hne.2.2.2 e

theorem digitValue_lt (ds : List (Fin 10)) : digitValue ds < 10 ^ ds.length := by
  induction ds with
  | nil => simp [digitValue_nil]
  | cons d ds ih =>
    rw [digitValue_cons, List.length_cons, pow_succ]
    have hd := d.isLt
    nlinarith

theorem sign_factor_cases (sg : Sign) : sg.factor = 1 ∨ sg.factor = -1 := by
  cases sg <;> simp [Sign.factor]

theorem ParseTZ_signed (sg : Sign) (d : Fin 10) (rest : List Char)
    (hrest : ∀ c ∈ rest, isSpace c = false) :
    ParseTZ ⟨sg.text ++ digitChar d :: rest⟩ =
      if Contains (digitChar d :: rest) '.' then
        dotBranch ⟨sg.text ++ digitChar d :: rest⟩ sg.factor (digitChar d :: rest)
      else if Contains (digitChar d :: rest) ':' then
        colonBranch ⟨sg.text ++ digitChar d :: rest⟩ sg.factor (digitChar d :: rest)
      else bareBranch ⟨sg.text ++ digitChar d :: rest⟩ sg.factor (digitChar d :: rest) := by
  obtain ⟨b0, tl, h1, h2, h3⟩ := stripSign_signed sg d rest
  have ht : TrimSpace (sg.text ++ digitChar d :: rest) = b0 :: tl := by
    rw [← h1]
    apply TrimSpace_eq_self
    intro c hc
    rcases List.mem_append.mp hc with h | h
    · exact sign_not_space sg c h
    · rcases List.mem_cons.mp h with h | h
      · rw [h]; exact digitChar_not_space d
      · exact hrest c h
  rw [ParseTZ_cons _ b0 tl ht, h2, h3]

theorem colonBranch_digits (input : String) (sign : Int) (H M : List (Fin 10))
    (hs : sign = 1 ∨ sign = -1) (hH : H.length = 1 ∨ H.length = 2) (hM : M ≠ []) :
    colonBranch input sign (digitText H ++ ':' :: digitText M) =
      if digitValue M < 2 ^ 63 then
        if 60 ≤ digitValue M then .err (.minuteRange input)
        else rangeCheck (sign * (60 * (digitValue H : Int) + digitValue M))
      else .err (.invalidMinute input) := by
  have hHne : H ≠ [] := by rintro rfl; simp at hH
  have hlt := digitValue_lt H
  have hh : digitValue H < 100 := by
    rcases hH with h | h <;> rw [h] at hlt <;> omega
  have hsplit := SplitN_two ':' (digitText H) (digitText M) (not_mem_digitText H ':' (by simp))
  have hA : Atoi (digitText H) = some (digitValue H : Int) := by
    rw [Atoi_digitText H hHne, if_pos (by omega)]
  simp only [colonBranch, hsplit, hA, Atoi_digitText M hM, List.length_cons, List.length_nil,
    List.getElem?_cons_zero, List.getElem?_cons_succ]
  rw [if_neg (by decide)]
  by_cases hm : digitValue M < 2 ^ 63
  · simp only [hm, if_true]
    by_cases hm2 : 60 ≤ digitValue M
    · rw [if_pos (by omega), if_pos hm2]
    · have e1 : wrap64 ((digitValue H : Int) * 60) = (digitValue H : Int) * 60 :=
        wrap64_eq _ (by omega) (by omega)
      have e2 : wrap64 ((digitValue H : Int) * 60 + (digitValue M : Int))
          = (digitValue H : Int) * 60 + (digitValue M : Int) := wrap64_eq _ (by omega) (by omega)
      have e3 : wrap64 (sign * ((digitValue H : Int) * 60 + (digitValue M : Int)))
          = sign * (60 * (digitValue H : Int) + digitValue M) := by
        rcases hs with h | h <;> subst h
        · rw [wrap64_eq _ (by omega) (by omega)]; ring
        · rw [wrap64_eq _ (by omega) (by omega)]; ring
      rw [if_neg (by omega), if_neg hm2, e1, e2, e3]
  · simp only [hm, if_false]

/-- C3: for an optional sign, one or two hour digits `H` and one or more
minute digits `M`, `ParseTZ` on `sign H : M` returns `s*(60*h + m)` when
`m ≤ 59` and the total lies in [-720, 840], and an error in every other case. -/
theorem ParseTZ_colon_form (sg : Sign) (H M : List (Fin 10))
    (hH : H.length = 1 ∨ H.length = 2) (hM : M ≠ []) :
    (digitValue M ≤ 59 ∧ -720 ≤ sg.factor * (60 * (digitValue H : Int) + digitValue M) ∧
        sg.factor * (60 * (digitValue H : Int) + digitValue M) ≤ 840 →
      ParseTZ ⟨sg.text ++ digitText H ++ ':' :: digitText M⟩ =
        .ok (sg.factor * (60 * (digitValue H : Int) + digitValue M))) ∧
    (¬ (digitValue M ≤ 59 ∧ -720 ≤ sg.factor * (60 * (digitValue H : Int) + digitValue M) ∧
        sg.factor * (60 * (digitValue H : Int) + digitValue M) ≤ 840) →
      ∃ e, ParseTZ ⟨sg.text ++ digitText H ++ ':' :: digitText M⟩ = .err e) := by
  obtain ⟨d, H', rfl⟩ : ∃ d H', H = d :: H' := by
    cases H with
    | nil => simp at hH
    | cons d H' => exact ⟨d, H', rfl⟩
  have hrest : ∀ c ∈ digitText H' ++ ':' :: digitText M, isSpace c = false := by
    intro c hc
    rcases List.mem_append.mp hc with h | h
    · exact digitText_not_space H' c h
    · rcases List.mem_cons.mp h with h | h
      · rw [h]; decide
      · exact digitText_not_space M c h
  have hP := ParseTZ_signed sg d (digitText H' ++ ':' :: digitText M) hrest
  have hshape : sg.text ++ digitText (d :: H') ++ ':' :: digitText M
      = sg.text ++ digitChar d :: (digitText H' ++ ':' :: digitText M) := by
    simp [digitText]
  have hshape2 : digitChar d :: (digitText H' ++ ':' :: digitText M)
      = digitText (d :: H') ++ ':' :: digitText M := by
    simp [digitText]
  have hdot : Contains (digitText (d :: H') ++ ':' :: digitText M) '.' = false := by
    have h1 := not_mem_digitText (d :: H') '.' (by simp)
    have h2 := not_mem_digitText M '.' (by simp)
    simp only [Contains, decide_eq_false_iff_not, List.mem_append, List.mem_cons]
    rintro (h | h | h)
    · exact h1 h
    · exact absurd h (by decide)
    · exact h2 h
  have hcol : Contains (digitText (d :: H') ++ ':' :: digitText M) ':' = true := by
    simp [Contains]
  rw [hshape, hP, hshape2, hdot, hcol]
  simp only [Bool.false_eq_true, if_false, if_true]
  rw [colonBranch_digits _ _ _ _ (sign_factor_cases sg) hH hM]
  constructor
  · rintro ⟨h1, h2, h3⟩
    rw [if_pos (by omega), if_neg (by omega)]
    simp only [rangeCheck]
    rw [if_neg (by omega)]
  · intro hn
    by_cases hm : digitValue M < 2 ^ 63
    · rw [if_pos hm]
      by_cases hm2 : 60 ≤ digitValue M
      · rw [if_pos hm2]; exact ⟨_, rfl⟩
      · rw [if_neg hm2]
        simp only [rangeCheck]
        rw [if_pos (by omega)]
        exact ⟨_, rfl⟩
    · rw [if_neg hm]; exact ⟨_, rfl⟩

theorem ParseTZ_colon_form_witness :
    ParseTZ "-12:00" = .ok (-720) ∧ (∃ e, ParseTZ "5:60" = .err e) :=
  ⟨(ParseTZ_colon_form Sign.minus [1, 2] [0, 0] (by decide) (by decide)).1 (by decide),
   (ParseTZ_colon_form Sign.none [5] [6, 0] (by decide) (by decide)).2 (by decide)⟩

theorem dotBranch_one_digit (input : String) (sign : Int) (H : List (Fin 10)) (d : Fin 10)
    (hs : sign = 1 ∨ sign = -1) (hH : H.length = 1 ∨ H.length = 2) :
    dotBranch input sign (digitText H ++ ['.', digitChar d]) =
      rangeCheck (sign * (60 * (digitValue H : Int) + 6 * (d.val : Int))) := by
  have hHne : H ≠ [] := by rintro rfl; simp at hH
  have hlt := digitValue_lt H
  have hh : digitValue H < 100 := by
    rcases hH with h | h <;> rw [h] at hlt <;> omega
  have hd := d.isLt
  have hsplit := SplitN_two '.' (digitText H) [digitChar d] (not_mem_digitText H '.' (by simp))
  have hA : Atoi (digitText H) = some (digitValue H : Int) := by
    rw [Atoi_digitText H hHne, if_pos (by omega)]
  have hlen : len [digitChar d] = 1 := by
    simp [len, digitChar_utf8Size]
  simp only [dotBranch, hsplit, hA, List.length_cons, List.length_nil,
    List.getElem?_cons_zero, List.getElem?_cons_succ, hlen, ParseFloat_digit, fracMinutes_digit]
  rw [if_neg (by decide)]
  have e1 : wrap64 ((digitValue H : Int) * 60) = (digitValue H : Int) * 60 :=
    wrap64_eq _ (by omega) (by omega)
  have e2 : wrap64 ((digitValue H : Int) * 60 + 6 * (d.val : Int))
      = (digitValue H : Int) * 60 + 6 * (d.val : Int) := wrap64_eq _ (by omega) (by omega)
  have e3 : wrap64 (sign * ((digitValue H : Int) * 60 + 6 * (d.val : Int)))
      = sign * (60 * (digitValue H : Int) + 6 * (d.val : Int)) := by
    rcases hs with h | h <;> subst h
    · rw [wrap64_eq _ (by omega) (by omega)]; ring
    · rw [wrap64_eq _ (by omega) (by omega)]; ring
  simp only [if_true, e1, e2, e3]

/-- C4: for an optional sign, one or two hour digits `H` and a single
fraction digit `d`, `ParseTZ` on `sign H . d` returns `s*(60*h + 6*d)` when
that total lies in [-720, 840] and an error otherwise: the float64
computation `int(f*60 + 0.5)` on `f = 0.d` gives exactly `6*d`. -/
theorem ParseTZ_dot_one_digit (sg : Sign) (H : List (Fin 10)) (d : Fin 10)
    (hH : H.length = 1 ∨ H.length = 2) :
    (-720 ≤ sg.factor * (60 * (digitValue H : Int) + 6 * (d.val : Int)) ∧
        sg.factor * (60 * (digitValue H : Int) + 6 * (d.val : Int)) ≤ 840 →
      ParseTZ ⟨sg.text ++ digitText H ++ ['.', digitChar d]⟩ =
        .ok (sg.factor * (60 * (digitValue H : Int) + 6 * (d.val : Int)))) ∧
    (¬ (-720 ≤ sg.factor * (60 * (digitValue H : Int) + 6 * (d.val : Int)) ∧
        sg.factor * (60 * (digitValue H : Int) + 6 * (d.val : Int)) ≤ 840) →
      ∃ e, ParseTZ ⟨sg.text ++ digitText H ++ ['.', digitChar d]⟩ = .err e) := by
  obtain ⟨h0, H', rfl⟩ : ∃ h0 H', H = h0 :: H' := by
    cases H with
    | nil => simp at hH
    | cons h0 H' => exact ⟨h0, H', rfl⟩
  have hrest : ∀ c ∈ digitText H' ++ ['.', digitChar d], isSpace c = false := by
    intro c hc
    rcases List.mem_append.mp hc with h | h
    · exact digitText_not_space H' c h
    · rcases List.mem_cons.mp h with h | h
      · rw [h]; decide
      · rw [List.mem_singleton.mp h]; exact digitChar_not_space d
  have hP := ParseTZ_signed sg h0 (digitText H' ++ ['.', digitChar d]) hrest
  have hshape : sg.text ++ digitText (h0 :: H') ++ ['.', digitChar d]
      = sg.text ++ digitChar h0 :: (digitText H' ++ ['.', digitChar d]) := by
    simp [digitText]
  have hshape2 : digitChar h0 :: (digitText H' ++ ['.', digitChar d])
      = digitText (h0 :: H') ++ ['.', digitChar d] := by
    simp [digitText]
  have hdot : Contains (digitText (h0 :: H') ++ ['.', digitChar d]) '.' = true := by
    simp [Contains]
  rw [hshape, hP, hshape2, hdot]
  simp only [if_true]
  rw [dotBranch_one_digit _ _ _ _ (sign_factor_cases sg) hH]
  constructor
  · rintro ⟨h1, h2⟩
    simp only [rangeCheck]
    rw [if_neg (by omega)]
  · intro hn
    simp only [rangeCheck]
    rw [if_pos (by omega)]
    exact ⟨_, rfl⟩

theorem ParseTZ_dot_one_digit_witness :
    ParseTZ "8.4" = .ok 504 ∧ (∃ e, ParseTZ "-12.1" = .err e) :=
  ⟨(ParseTZ_dot_one_digit Sign.none [8] 4 (by decide)).1 (by decide),
   (ParseTZ_dot_one_digit Sign.minus [1, 2] 1 (by decide)).2 (by decide)⟩

/-- C2 (the code at the failing input): the hour count `2^62` fits Go's
int, `2^62 * 60` is far outside [-720, 840], and yet `ParseTZ` accepts the
text and returns offset 0, because `sign * hours * 60` wraps to 0 in 64-bit
arithmetic before the range check. -/
theorem ParseTZ_bare_hours_overflow :
    ParseTZ "4611686018427387904" = .ok 0 ∧
      Atoi "4611686018427387904".data = some 4611686018427387904 ∧
      ¬ ((1 : Int) * 4611686018427387904 * 60 ≤ 840) := by
  decide

/-! ## Error values and their messages -/

theorem rangeCheck_err (t : Int) (e : TZError) (h : rangeCheck t = .err e) : e = .outOfRange := by
  unfold rangeCheck at h
  split at h
  · injection h with h; exact h.symm
  · cases h

theorem dotBranch_err (input : String) (sign : Int) (s : List Char) (e : TZError)
    (h : dotBranch input sign s = .err e) : e = .outOfRange ∨ carriesInput e input := by
  unfold dotBranch at h
  simp only at h
  repeat' split at h
  all_goals first
    | exact Or.inl (rangeCheck_err _ _ h)
    | (injection h with h; subst h; right; simp [carriesInput])
    | cases h

theorem colonBranch_err (input : String) (sign : Int) (s : List Char) (e : TZError)
    (h : colonBranch input sign s = .err e) : e = .outOfRange ∨ carriesInput e input := by
  unfold colonBranch at h
  simp only at h
  repeat' split at h
  all_goals first
    | exact Or.inl (rangeCheck_err _ _ h)
    | (injection h with h; subst h; right; simp [carriesInput])
    | cases h

theorem bareBranch_err (input : String) (sign : Int) (s : List Char) (e : TZError)
    (h : bareBranch input sign s = .err e) : e = .outOfRange ∨ carriesInput e input := by
  unfold bareBranch at h
  repeat' split at h
  all_goals first
    | exact Or.inl (rangeCheck_err _ _ h)
    | (injection h with h; subst h; right; simp [carriesInput])

theorem ParseTZ_err_cases (input : String) (e : TZError) (h : ParseTZ input = .err e) :
    e = .outOfRange ∨ carriesInput e input := by
  cases hs : TrimSpace input.data with
  | nil =>
    rw [ParseTZ_nil input hs] at h
    cases h
  | cons b0 rest =>
    rw [ParseTZ_cons input b0 rest hs] at h
    split at h
    · exact dotBranch_err _ _ _ _ h
    · split at h
      · exact colonBranch_err _ _ _ _ h
      · exact bareBranch_err _ _ _ _ h

theorem appendEscapedRune_plain (table : Char → Bool) (c : Char)
    (h : 0x20 ≤ c.toNat ∧ c.toNat < 0x7F ∧ c ≠ '"' ∧ c ≠ '\\') :
    appendEscapedRune table c = [c] := by
  obtain ⟨h1, h2, h3, h4⟩ := h
  have hp : IsPrint table c = true := by
    simp only [IsPrint]
    rw [if_pos (by omega), if_pos ⟨h1, h2⟩]
  simp only [appendEscapedRune, h3, h4, or_self, if_false, hp, if_true]

theorem flatten_escaped_plain (table : Char → Bool) (s : List Char)
    (h : ∀ c ∈ s, 0x20 ≤ c.toNat ∧ c.toNat < 0x7F ∧ c ≠ '"' ∧ c ≠ '\\') :
    (s.map (appendEscapedRune table)).flatten = s := by
  induction s with
  | nil => rfl
  | cons c s ih =>
    have hc := appendEscapedRune_plain table c (h c (by simp))
    have hs := ih (fun x hx => h x (by simp [hx]))
    simp [hc, hs]

theorem Quote_plain (table : Char → Bool) (s : String) (h : plainASCII s) :
    (Quote table s).data = '"' :: (s.data ++ ['"']) := by
  simp only [Quote, flatten_escaped_plain table s.data h]

theorem occursIn_message (table : Char → Bool) (pre input : String) :
    occursIn (Quote table input) (pre ++ Quote table input) ∧
      (plainASCII input → occursIn input (pre ++ Quote table input)) := by
  constructor
  · simp only [occursIn, String.data_append]
    exact ⟨pre.data, [], by simp⟩
  · intro hp
    simp only [occursIn, String.data_append, Quote_plain table input hp]
    exact ⟨pre.data ++ ['"'], ['"'], by simp⟩

/-- C5 (as amended): when `ParseTZ` returns an error other than the range
error, the message contains the input as `%q` prints it, hence the input
text itself when the input holds only printable ASCII characters other than
the double quote and the backslash. -/
theorem ParseTZ_error_message (table : Char → Bool) (input : String) (e : TZError)
    (h : ParseTZ input = .err e) (hne : e ≠ .outOfRange) :
    occursIn (Quote table input) (e.Error table) ∧
      (plainASCII input → occursIn input (e.Error table)) := by
  rcases ParseTZ_err_cases input e h with h1 | h1 | h1 | h1 | h1 | h1
  · exact absurd h1 hne
  all_goals
    subst h1
    exact occursIn_message table _ input

theorem ParseTZ_error_message_witness :
    ParseTZ "5:ab" = .err (.invalidMinute "5:ab") ∧
      occursIn "5:ab" ((TZError.invalidMinute "5:ab").Error (fun _ => false)) :=
  ⟨by decide,
   (ParseTZ_error_message (fun _ => false) "5:ab" (.invalidMinute "5:ab") (by decide)
      (by decide)).2 (by decide)⟩

/-- C5 (counterexample): the input "14:01" is rejected by the range check
and the message of its error does not contain the text "14:01"; the input
`a"b` is rejected with the message `invalid hour in "a\"b"`, which does not
contain the text `a"b` either. -/
theorem ParseTZ_error_omits_input :
    (∃ e, ParseTZ "14:01" = .err e ∧ ∀ table, ¬ occursIn "14:01" (e.Error table)) ∧
      (∃ e, ParseTZ "a\"b" = .err e ∧ ∀ table, ¬ occursIn "a\"b" (e.Error table)) := by
  refine ⟨⟨.outOfRange, by decide, fun table => ?_⟩, ⟨.invalidHour "a\"b", by decide, fun table => ?_⟩⟩
  · show ¬ occursIn "14:01" "timezone offset must be between -12h and +14h"
    decide
  · have e : (TZError.invalidHour "a\"b").Error table = "invalid hour in \"a\\\"b\"" := by
      simp [TZError.Error, Quote, appendEscapedRune, IsPrint]
    rw [e]
    decide

/-- C6 (the code at the failing inputs): the fraction parts "+5" and "-0"
are not two decimal digits, and `ParseTZ` accepts them as 5 and 0 minutes,
because `strconv.Atoi` reads a sign. -/
theorem ParseTZ_dot_signed_fraction :
    ParseTZ "5.+5" = .ok 305 ∧ ParseTZ "5.-0" = .ok 300 := by
  decide

/-! ## The shape of the branches on a text that holds the separator -/

theorem dotBranch_parts (input : String) (sign : Int) (a frac : List Char) (h : '.' ∉ a) :
    dotBranch input sign (a ++ '.' :: frac) =
      match Atoi a with
      | none => .err (.invalidHour input)
      | some hours =>
        if len frac = 1 then
          match ParseFloat ('0' :: '.' :: frac) with
          | none => .err (.invalidFraction input)
          | some f =>
            rangeCheck (wrap64 (sign * wrap64 (wrap64 (hours * 60) +
              Float64.toInt (Float64.add (Float64.mul f (Float64.ofNat 60)) Float64.half))))
        else if len frac = 2 then
          match Atoi frac with
          | none => .err (.invalidMinute input)
          | some m =>
            if m < 0 ∨ m ≥ 60 then .err (.minuteRange input)
            else rangeCheck (wrap64 (sign * wrap64 (wrap64 (hours * 60) + m)))
        else .err (.invalidFormat input) := by
  simp only [dotBranch, SplitN_two '.' a frac h, List.length_cons, List.length_nil,
    List.getElem?_cons_zero, List.getElem?_cons_succ]
  rw [if_neg (by decide)]

theorem colonBranch_parts (input : String) (sign : Int) (a b : List Char) (h : ':' ∉ a) :
    colonBranch input sign (a ++ ':' :: b) =
      match Atoi a with
      | none => .err (.invalidHour input)
      | some hours =>
        match Atoi b with
        | none => .err (.invalidMinute input)
        | some minutes =>
          if minutes < 0 ∨ minutes ≥ 60 then .err (.minuteRange input)
          else rangeCheck (wrap64 (sign * wrap64 (wrap64 (hours * 60) + minutes))) := by
  simp only [colonBranch, SplitN_two ':' a b h, List.length_cons, List.length_nil,
    List.getElem?_cons_zero, List.getElem?_cons_succ]
  rw [if_neg (by decide)]

theorem parseDigits_none (s : List Char) (c : Char) (hc : c ∈ s)
    (hbad : ¬ (48 ≤ c.toNat ∧ c.toNat ≤ 57)) (acc : Nat) : parseDigits acc s = none := by
  induction s generalizing acc with
  | nil => simp at hc
  | cons x s ih =>
    simp only [parseDigits]
    by_cases hx : 48 ≤ x.toNat ∧ x.toNat ≤ 57
    · rw [if_pos hx]
      rcases List.mem_cons.mp hc with e | e
      · exact absurd (e ▸ hx) hbad
      · exact ih e _
    · rw [if_neg hx]

theorem Atoi_none_of_mem (s : List Char) (c : Char) (hc : c ∈ s)
    (hbad : ¬ (48 ≤ c.toNat ∧ c.toNat ≤ 57)) (hp : c ≠ '+') (hm : c ≠ '-') : Atoi s = none := by
  cases s with
  | nil => rfl
  | cons x rest =>
    have hmem : c ∈ (if x = '-' ∨ x = '+' then rest else x :: rest) := by
      by_cases hx : x = '-' ∨ x = '+'
      · rw [if_pos hx]
        rcases List.mem_cons.mp hc with e | e
        · rcases hx with h | h
          · exact absurd (e.trans h) hm
          · exact absurd (e.trans h) hp
        · exact e
      · rw [if_neg hx]; exact hc
    have hnone := parseDigits_none _ c hmem hbad 0
    simp only [Atoi, hnone]
    split <;> simp

theorem Atoi_none_of_dot (s : List Char) (h : '.' ∈ s) : Atoi s = none :=
  Atoi_none_of_mem s '.' h (by decide) (by decide) (by decide)

theorem Atoi_none_of_colon (s : List Char) (h : ':' ∈ s) : Atoi s = none :=
  Atoi_none_of_mem s ':' h (by decide) (by decide) (by decide)

theorem len_eq_zero (s : List Char) (h : len s = 0) : s = [] := by
  cases s with
  | nil => rfl
  | cons c s => have := len_pos c s; omega

theorem agree_err (a b : TZError) : Outcome.agree (.err a) (.err b) :=
  Or.inl ⟨a, b, rfl, rfl⟩

theorem agree_rangeCheck (x : Int) : Outcome.agree (rangeCheck x) (rangeCheck x) := by
  unfold rangeCheck
  split
  · exact agree_err _ _
  · exact Or.inr ⟨x, rfl, rfl⟩

theorem TrimSpace_append (a b : List Char) (c z : Char) (hc : isSpace c = false)
    (hz : isSpace z = false) :
    TrimSpace (a ++ c :: (b ++ [z])) = List.dropWhile isSpace a ++ c :: (b ++ [z]) := by
  unfold TrimSpace
  rw [dropWhile_append_of_head isSpace a c _ hc]
  have e : List.dropWhile isSpace a ++ c :: (b ++ [z])
      = (List.dropWhile isSpace a ++ c :: b) ++ [z] := by simp
  rw [e]
  exact rdropWhile_of_last isSpace _ z hz

theorem stripSign_append (c : Char) (l x : List Char) :
    stripSign (c :: (l ++ x)) = stripSign (c :: l) ++ x := by
  simp only [stripSign]
  split
  · rfl
  · split <;> rfl

/-! ## The half-hour fraction and the 30-minute colon form -/

theorem dotBranch_second_dot (input : String) (sign : Int) (a b x : List Char) (h : '.' ∉ a)
    (hx : 2 ≤ len x) (hx2 : len x = 2 → Atoi x = none) :
    ∃ e, dotBranch input sign (a ++ '.' :: (b ++ x)) = .err e := by
  rw [dotBranch_parts input sign a (b ++ x) h]
  cases hA : Atoi a with
  | none => exact ⟨_, rfl⟩
  | some hours =>
    simp only
    have hl : len (b ++ x) = len b + len x := len_append b x
    rw [if_neg (by omega)]
    by_cases h2 : len (b ++ x) = 2
    · rw [if_pos h2]
      have hb : b = [] := len_eq_zero b (by omega)
      subst hb
      rw [List.nil_append, hx2 (by simpa using h2)]
      exact ⟨_, rfl⟩
    · rw [if_neg h2]; exact ⟨_, rfl⟩

theorem half_hour_core (i1 i2 : String) (sign : Int) (R : List Char) :
    Outcome.agree
      (if Contains (R ++ ['.', '5']) '.' then dotBranch i1 sign (R ++ ['.', '5'])
        else if Contains (R ++ ['.', '5']) ':' then colonBranch i1 sign (R ++ ['.', '5'])
        else bareBranch i1 sign (R ++ ['.', '5']))
      (if Contains (R ++ [':', '3', '0']) '.' then dotBranch i2 sign (R ++ [':', '3', '0'])
        else if Contains (R ++ [':', '3', '0']) ':' then colonBranch i2 sign (R ++ [':', '3', '0'])
        else bareBranch i2 sign (R ++ [':', '3', '0'])) := by
  have hc1 : Contains (R ++ ['.', '5']) '.' = true := by simp [Contains]
  have hc2 : Contains (R ++ [':', '3', '0']) ':' = true := by simp [Contains]
  rw [hc1, if_pos rfl]
  by_cases hdot : '.' ∈ R
  · -- a dot already in the hour text: both inputs are malformed
    obtain ⟨a, b, rfl, ha⟩ := mem_split '.' R hdot
    have hc3 : Contains (a ++ '.' :: b ++ [':', '3', '0']) '.' = true := by simp [Contains]
    rw [hc3, if_pos rfl]
    have e1 : a ++ '.' :: b ++ ['.', '5'] = a ++ '.' :: (b ++ ['.', '5']) := by simp
    have e2 : a ++ '.' :: b ++ [':', '3', '0'] = a ++ '.' :: (b ++ [':', '3', '0']) := by simp
    rw [e1, e2]
    obtain ⟨x1, h1⟩ := dotBranch_second_dot i1 sign a b ['.', '5'] ha (by decide)
      (fun _ => by decide)
    obtain ⟨x2, h2⟩ := dotBranch_second_dot i2 sign a b [':', '3', '0'] ha (by decide)
      (fun h => absurd h (by decide))
    rw [h1, h2]
    exact agree_err _ _
  · have hc3 : Contains (R ++ [':', '3', '0']) '.' = false := by
      simp only [Contains, decide_eq_false_iff_not, List.mem_append]
      rintro (h | h)
      · exact hdot h
      · exact absurd h (by decide)
    rw [hc3, if_neg (by simp), hc2, if_pos rfl]
    rw [dotBranch_parts i1 sign R ['5'] hdot]
    by_cases hcol : ':' ∈ R
    · -- a colon already in the hour text: both inputs are malformed
      rw [Atoi_none_of_colon R hcol]
      obtain ⟨a, b, rfl, ha⟩ := mem_split ':' R hcol
      have e2 : a ++ ':' :: b ++ [':', '3', '0'] = a ++ ':' :: (b ++ [':', '3', '0']) := by simp
      rw [e2, colonBranch_parts i2 sign a _ ha, Atoi_none_of_colon (b ++ [':', '3', '0']) (by simp)]
      cases Atoi a <;> exact agree_err _ _
    · rw [colonBranch_parts i2 sign R ['3', '0'] hcol]
      cases Atoi R with
      | none => exact agree_err _ _
      | some hours =>
        have hf : ParseFloat ['0', '.', '5'] = some (Float64.round 5 10 0) := ParseFloat_digit 5
        have hm := fracMinutes_digit 5
        have h30 : Atoi ['3', '0'] = some 30 := by decide
        have hl : len ['5'] = 1 := by decide
        simp only [hl, if_true, hf, h30]
        rw [if_neg (by omega)]
        have hm2 : Float64.toInt (Float64.add (Float64.mul (Float64.round 5 10 0)
            (Float64.ofNat 60)) Float64.half) = 30 := by
          rw [show (5 : Nat) = (5 : Fin 10).val from rfl, hm]; rfl
        rw [hm2]
        exact agree_rangeCheck _

/-- C7: for every string `h`, `ParseTZ` on `h` followed by ".5" and on `h`
followed by ":30" agree: both return an error, or both return the same
number of minutes. -/
theorem ParseTZ_half_hour_agree (h : String) :
    Outcome.agree (ParseTZ (h ++ ".5")) (ParseTZ (h ++ ":30")) := by
  have t1 : TrimSpace (h ++ ".5").data = List.dropWhile isSpace h.data ++ ['.', '5'] := by
    have := TrimSpace_append h.data [] '.' '5' (by decide) (by decide)
    simpa [String.data_append] using this
  have t2 : TrimSpace (h ++ ":30").data = List.dropWhile isSpace h.data ++ [':', '3', '0'] := by
    have := TrimSpace_append h.data ['3'] ':' '0' (by decide) (by decide)
    simpa [String.data_append] using this
  cases hL : List.dropWhile isSpace h.data with
  | nil =>
    rw [hL] at t1 t2
    rw [ParseTZ_cons _ '.' ['5'] t1, ParseTZ_cons _ ':' ['3', '0'] t2]
    have := half_hour_core (h ++ ".5") (h ++ ":30") 1 []
    exact this
  | cons c L =>
    rw [hL] at t1 t2
    rw [ParseTZ_cons _ c (L ++ ['.', '5']) t1, ParseTZ_cons _ c (L ++ [':', '3', '0']) t2,
      stripSign_append, stripSign_append]
    exact half_hour_core _ _ _ _

/-! ## Trimming is done by the parser itself -/

theorem dropWhile_head_not_space (s : List Char) (c : Char) (x : List Char)
    (h : List.dropWhile isSpace s = c :: x) : isSpace c = false := by
  have := List.head_dropWhile_not isSpace s (by rw [h]; simp)
  simpa [h] using this

theorem TrimSpace_idempotent (s : List Char) : TrimSpace (TrimSpace s) = TrimSpace s := by
  cases hy : TrimSpace s with
  | nil => rfl
  | cons c y =>
    have hpre : TrimSpace s <+: List.dropWhile isSpace s := by
      unfold TrimSpace; exact List.rdropWhile_prefix _ _
    rw [hy] at hpre
    obtain ⟨t, ht⟩ := hpre
    have hc : isSpace c = false := dropWhile_head_not_space s c (y ++ t) (by rw [← ht]; simp)
    have h1 : List.dropWhile isSpace (c :: y) = c :: y := by
      simp [List.dropWhile, hc]
    have h2 : List.rdropWhile isSpace (c :: y) = c :: y := by
      rw [← hy]; unfold TrimSpace; exact List.rdropWhile_idempotent _ _
    show List.rdropWhile isSpace (List.dropWhile isSpace (c :: y)) = c :: y
    rw [h1, h2]

theorem dotBranch_agree (i1 i2 : String) (sign : Int) (s : List Char) :
    Outcome.agree (dotBranch i1 sign s) (dotBranch i2 sign s) := by
  unfold dotBranch
  simp only
  repeat' split
  all_goals first
    | exact agree_err _ _
    | exact agree_rangeCheck _
    | simp_all

theorem colonBranch_agree (i1 i2 : String) (sign : Int) (s : List Char) :
    Outcome.agree (colonBranch i1 sign s) (colonBranch i2 sign s) := by
  unfold colonBranch
  simp only
  repeat' split
  all_goals first
    | exact agree_err _ _
    | exact agree_rangeCheck _
    | simp_all

theorem bareBranch_agree (i1 i2 : String) (sign : Int) (s : List Char) :
    Outcome.agree (bareBranch i1 sign s) (bareBranch i2 sign s) := by
  unfold bareBranch
  repeat' split
  all_goals first
    | exact agree_err _ _
    | exact agree_rangeCheck _

theorem ParseTZ_agree_of_trim (a b : String) (h : TrimSpace a.data = TrimSpace b.data) :
    Outcome.agree (ParseTZ a) (ParseTZ b) := by
  cases hs : TrimSpace b.data with
  | nil =>
    rw [ParseTZ_nil a (h.trans hs), ParseTZ_nil b hs]
    exact Or.inr ⟨0, rfl, rfl⟩
  | cons b0 rest =>
    rw [ParseTZ_cons a b0 rest (h.trans hs), ParseTZ_cons b b0 rest hs]
    split
    · exact dotBranch_agree _ _ _ _
    · split
      · exact colonBranch_agree _ _ _ _
      · exact bareBranch_agree _ _ _ _

/-- C8: `ParseTZ` trims the surrounding white space itself: on an input
and on the trimmed input it either fails both times or returns the same
offset both times, and an input that is empty or all white space gives
offset 0 with no error. -/
theorem ParseTZ_trims_input (input : String) :
    Outcome.agree (ParseTZ input) (ParseTZ ⟨TrimSpace input.data⟩) ∧
      ((∀ c ∈ input.data, isSpace c = true) → ParseTZ input = .ok 0) := by
  constructor
  · exact ParseTZ_agree_of_trim _ _ (TrimSpace_idempotent input.data).symm
  · intro hall
    apply ParseTZ_nil
    unfold TrimSpace
    rw [List.dropWhile_eq_nil_iff.mpr hall]
    rfl

theorem ParseTZ_trims_input_witness :
    Outcome.agree (ParseTZ " \t5:30\n") (ParseTZ "5:30") ∧ ParseTZ " \t\n" = .ok 0 :=
  ⟨(ParseTZ_trims_input " \t5:30\n").1, (ParseTZ_trims_input " \t\n").2 (by decide)⟩

/-! ## GetTimeNow -/

/-- The five format tokens. -/
theorem knownFormats_mem (tok : String) :
    tok ∈ knownFormats ↔
      tok = "unix" ∨ tok = "rfc3339" ∨ tok = "ansic" ∨ tok = "stamp" ∨ tok = "stampmilli" := by
  simp [knownFormats]

theorem GetTimeNow_unix (lib : Lib) (cfg : Config) (c : Clock)
    (h : ToLower lib cfg.Format = "unix") :
    GetTimeNow lib cfg c =
      ((Sprintf_d (Time.Unix ⟨c.readings (c.reads + 1), Location.Local⟩), none),
        ⟨c.readings, c.reads + 2⟩) := by
  simp [GetTimeNow, Now, h]

theorem GetTimeNow_unknown (lib : Lib) (cfg : Config) (c : Clock)
    (h : ToLower lib cfg.Format ∉ knownFormats) :
    GetTimeNow lib cfg c =
      ((Sprintf_d (Time.Unix ⟨c.readings (c.reads + 1), Location.Local⟩),
        some "unknown format, defaulting to unix"), ⟨c.readings, c.reads + 2⟩) := by
  rw [knownFormats_mem] at h
  simp only [not_or] at h
  obtain ⟨h1, h2, h3, h4, h5⟩ := h
  simp [GetTimeNow, Now, h1, h2, h3, h4, h5]

theorem GetTimeNow_known_no_error (lib : Lib) (cfg : Config) (c : Clock)
    (h : ToLower lib cfg.Format ∈ knownFormats) : (GetTimeNow lib cfg c).1.2 = none := by
  simp only [GetTimeNow, Now]
  split_ifs <;> first | rfl | (exfalso; rw [knownFormats_mem] at h; tauto)

/-- C9: for every configuration and every clock, `GetTimeNow` returns a
non-nil error exactly when the lower-cased format is none of "unix",
"rfc3339", "ansic", "stamp", "stampmilli", and the message of every error
it returns contains "unknown format". -/
theorem GetTimeNow_error_iff_unknown (lib : Lib) (cfg : Config) (c : Clock) :
    ((GetTimeNow lib cfg c).1.2 ≠ none ↔ ToLower lib cfg.Format ∉ knownFormats) ∧
      ∀ msg, (GetTimeNow lib cfg c).1.2 = some msg → occursIn "unknown format" msg := by
  by_cases h : ToLower lib cfg.Format ∈ knownFormats
  · have hn := GetTimeNow_known_no_error lib cfg c h
    rw [hn]
    exact ⟨by simp [h], by simp⟩
  · rw [GetTimeNow_unknown lib cfg c h]
    refine ⟨by simp [h], ?_⟩
    intro msg hmsg
    simp only [Option.some.injEq] at hmsg
    subst hmsg
    decide

/-- C10: when the lower-cased format is "unix", `GetTimeNow` returns, for
any two offsets and the same clock, the same text and no error, and the
text is the decimal rendering of the Unix seconds of the instant read (the
instant `t` itself when the clock is held at `t`). -/
theorem GetTimeNow_unix_offset_independent (lib : Lib) (format : String) (a b : Int) (c : Clock)
    (h : ToLower lib format = "unix") :
    (GetTimeNow lib ⟨a, format⟩ c).1 = (GetTimeNow lib ⟨b, format⟩ c).1 ∧
      (GetTimeNow lib ⟨a, format⟩ c).1 =
        (Sprintf_d (Time.Unix ⟨c.readings (c.reads + 1), Location.Local⟩), none) ∧
      ∀ t : Int, (GetTimeNow lib ⟨a, format⟩ (Clock.fixed t)).1 =
        (Sprintf_d (t / 1000000000), none) := by
  refine ⟨?_, ?_, ?_⟩
  · rw [GetTimeNow_unix lib ⟨a, format⟩ c h, GetTimeNow_unix lib ⟨b, format⟩ c h]
  · rw [GetTimeNow_unix lib ⟨a, format⟩ c h]
  · intro t
    rw [GetTimeNow_unix lib ⟨a, format⟩ (Clock.fixed t) h]
    rfl

theorem GetTimeNow_unix_offset_independent_witness :
    (GetTimeNow ⟨fun _ layout => layout, id⟩ ⟨123, "Unix"⟩ (Clock.fixed 1700000000999999999)).1 =
      ("1700000000", none) := by
  have h := (GetTimeNow_unix_offset_independent ⟨fun _ layout => layout, id⟩ "Unix" 123 0
    (Clock.fixed 1700000000999999999) (by decide)).2.2 1700000000999999999
  rw [h]
  decide

/-! ## The decimal text of the Unix seconds -/

theorem digitValue_append_single (ds : List (Fin 10)) (d : Fin 10) :
    digitValue (ds ++ [d]) = digitValue ds * 10 + d.val := by
  simp [digitValue, Nat.ofDigits_cons]
  ring

theorem decimalDigits_spec (fuel n : Nat) (acc : List Char) (h : n < fuel) :
    ∃ ds : List (Fin 10), ds ≠ [] ∧ digitValue ds = n ∧
      decimalDigits fuel n acc = digitText ds ++ acc := by
  induction fuel generalizing n acc with
  | zero => omega
  | succ fuel ih =>
    by_cases hn : n < 10
    · refine ⟨[⟨n, hn⟩], by simp, ?_, ?_⟩
      · simp [digitValue]
      · simp [decimalDigits, hn, digitText, digitChar]
    · have hlt : n / 10 < fuel := by omega
      obtain ⟨ds, hne, hv, hd⟩ := ih (n / 10) (Char.ofNat (48 + n % 10) :: acc) hlt
      have hmod : n % 10 < 10 := Nat.mod_lt _ (by decide)
      refine ⟨ds ++ [⟨n % 10, hmod⟩], by simp, ?_, ?_⟩
      · rw [digitValue_append_single, hv]
        show n / 10 * 10 + n % 10 = n
        omega
      · simp only [decimalDigits, if_neg hn, hd]
        simp [digitText, digitChar]

theorem Atoi_minus_digitText (ds : List (Fin 10)) (h : ds ≠ []) (hv : digitValue ds ≤ 2 ^ 63) :
    Atoi ('-' :: digitText ds) = some (-(digitValue ds : Int)) := by
  have hp := parseDigits_digitText ds 0
  have hne := digitText_ne_nil ds h
  simp only [Atoi, true_or, if_true, hne, if_false, hp, decide_True]
  simp only [zero_mul, zero_add]
  rw [if_pos (by omega)]

theorem Atoi_Sprintf_d (n : Int) (h1 : -2 ^ 63 ≤ n) (h2 : n < 2 ^ 63) :
    Atoi (Sprintf_d n).data = some n := by
  obtain ⟨ds, hne, hv, hd⟩ := decimalDigits_spec (n.natAbs + 1) n.natAbs [] (by omega)
  rw [List.append_nil] at hd
  unfold Sprintf_d
  by_cases hn : n < 0
  · rw [if_pos hn]
    simp only [hd]
    rw [Atoi_minus_digitText ds hne (by rw [hv]; omega), hv]
    congr 1
    omega
  · rw [if_neg hn]
    simp only [hd]
    rw [Atoi_digitText ds hne, hv, if_pos (by omega)]
    congr 1
    omega

theorem ToLower_unix (lib : Lib) : ToLower lib "unix" = "unix" := by
  simp [ToLower, toLowerRune]

/-- C11: for an unrecognized format token and any offsets `a` and `b`, the
text `GetTimeNow` returns alongside its error is the text it returns for
format "unix" on the same clock, namely the decimal rendering of the Unix
seconds of the instant read, not shifted by the offset; and parsing that
text with `strconv.ParseInt(s, 10, 64)` gives those seconds back (the Unix
seconds being an `int64`). -/
theorem GetTimeNow_fallback_text (lib : Lib) (format : String) (a b : Int) (c : Clock)
    (h : ToLower lib format ∉ knownFormats)
    (h1 : -2 ^ 63 ≤ Time.Unix ⟨c.readings (c.reads + 1), Location.Local⟩)
    (h2 : Time.Unix ⟨c.readings (c.reads + 1), Location.Local⟩ < 2 ^ 63) :
    (GetTimeNow lib ⟨a, format⟩ c).1.2 ≠ none ∧
      (GetTimeNow lib ⟨a, format⟩ c).1.1 = (GetTimeNow lib ⟨b, "unix"⟩ c).1.1 ∧
      (GetTimeNow lib ⟨a, format⟩ c).1.1 =
        Sprintf_d (Time.Unix ⟨c.readings (c.reads + 1), Location.Local⟩) ∧
      ParseInt (GetTimeNow lib ⟨a, format⟩ c).1.1 =
        some (Time.Unix ⟨c.readings (c.reads + 1), Location.Local⟩) := by
  rw [GetTimeNow_unknown lib ⟨a, format⟩ c h,
    GetTimeNow_unix lib ⟨b, "unix"⟩ c (ToLower_unix lib)]
  refine ⟨by simp, rfl, rfl, ?_⟩
  exact Atoi_Sprintf_d _ h1 h2

theorem GetTimeNow_fallback_text_witness :
    (GetTimeNow ⟨fun _ layout => layout, id⟩ ⟨840, "not_a_format"⟩
        (Clock.fixed 1700000000999999999)).1.1 =
      (GetTimeNow ⟨fun _ layout => layout, id⟩ ⟨0, "unix"⟩
        (Clock.fixed 1700000000999999999)).1.1 ∧
    ParseInt (GetTimeNow ⟨fun _ layout => layout, id⟩ ⟨840, "not_a_format"⟩
        (Clock.fixed 1700000000999999999)).1.1 = some 1700000000 :=
  have h := GetTimeNow_fallback_text ⟨fun _ layout => layout, id⟩ "not_a_format" 840 0
    (Clock.fixed 1700000000999999999) (by decide) (by decide) (by decide)
  ⟨h.2.1, h.2.2.2⟩

/-! ## The layout formats -/

theorem layoutFormats_mem (tok : String) :
    tok ∈ layoutFormats ↔ tok = "rfc3339" ∨ tok = "ansic" ∨ tok = "stamp" ∨ tok = "stampmilli" := by
  simp [layoutFormats]

theorem GetTimeNow_layout (lib : Lib) (cfg : Config) (c : Clock)
    (h : ToLower lib cfg.Format ∈ layoutFormats) :
    GetTimeNow lib cfg c =
      ((lib.Format ⟨c.readings c.reads + wrap64 (wrap64 cfg.TimezoneOffsetMinutes * Minute),
          Location.UTC⟩ (layoutOf (ToLower lib cfg.Format)), none),
        ⟨c.readings, c.reads + 1⟩) := by
  rw [layoutFormats_mem] at h
  rcases h with h | h | h | h <;>
    simp [GetTimeNow, Now, h, Time.UTC, Time.Add, layoutOf, RFC3339, ANSIC, Stamp, StampMilli]

theorem duration_exact (k : Int) (h1 : -153722867 ≤ k) (h2 : k ≤ 153722867) :
    wrap64 (wrap64 k * Minute) = k * 60000000000 := by
  unfold Minute
  rw [wrap64_eq k (by omega) (by omega), wrap64_eq _ (by omega) (by omega)]

/-- C12 (as amended): for a format token lower-casing to "rfc3339", "ansic",
"stamp" or "stampmilli" and an offset `k` whose duration fits a
`time.Duration` (`|k| ≤ 153722867` minutes, which covers every offset that
`ParseTZ` returns), `GetTimeNow` at instant `t` with offset `k` returns no
error and the text it returns at instant `t + k` minutes with offset 0: the
layout of the token applied to the UTC-located time `t + k` minutes. -/
theorem GetTimeNow_offset_shifts_clock (lib : Lib) (format : String) (k t : Int)
    (h : ToLower lib format ∈ layoutFormats) (h1 : -153722867 ≤ k) (h2 : k ≤ 153722867) :
    (GetTimeNow lib ⟨k, format⟩ (Clock.fixed t)).1 =
        (GetTimeNow lib ⟨0, format⟩ (Clock.fixed (t + k * 60000000000))).1 ∧
      (GetTimeNow lib ⟨k, format⟩ (Clock.fixed t)).1 =
        (lib.Format ⟨t + k * 60000000000, Location.UTC⟩ (layoutOf (ToLower lib format)), none) := by
  rw [GetTimeNow_layout lib ⟨k, format⟩ _ h, GetTimeNow_layout lib ⟨0, format⟩ _ h]
  simp only [duration_exact k h1 h2, duration_exact 0 (by omega) (by omega), Clock.fixed]
  simp

theorem GetTimeNow_offset_shifts_clock_witness :
    (GetTimeNow ⟨fun t _ => Sprintf_d t.unixNano, id⟩ ⟨840, "RFC3339"⟩ (Clock.fixed 0)).1 =
      ("50400000000000", none) := by
  have h := (GetTimeNow_offset_shifts_clock ⟨fun t _ => Sprintf_d t.unixNano, id⟩ "RFC3339" 840 0
    (by decide) (by decide) (by decide)).2
  rw [h]
  decide

/-- C12 (counterexample): with a renderer that prints the instant it is
given, token "rfc3339" and offset 153722868 minutes, `GetTimeNow` at instant
0 does not return the text it returns at instant 0 + 153722868 minutes with
offset 0: the duration `153722868 * time.Minute` wraps to a negative
`time.Duration`. -/
theorem GetTimeNow_offset_duration_wraps :
    (GetTimeNow ⟨fun t _ => Sprintf_d t.unixNano, id⟩ ⟨153722868, "rfc3339"⟩ (Clock.fixed 0)).1 =
        ("-9223371993709551616", none) ∧
      (GetTimeNow ⟨fun t _ => Sprintf_d t.unixNano, id⟩ ⟨0, "rfc3339"⟩
        (Clock.fixed (0 + 153722868 * 60000000000))).1 = ("9223372080000000000", none) := by
  decide

/-! ## Case of the format token -/

theorem GetTimeNow_congr (lib : Lib) (f1 f2 : String) (a : Int) (c : Clock)
    (h : ToLower lib f1 = ToLower lib f2) :
    GetTimeNow lib ⟨a, f1⟩ c = GetTimeNow lib ⟨a, f2⟩ c := by
  simp only [GetTimeNow, h]

theorem ToLower_idempotent (lib : Lib)
    (hidem : ∀ r, toLowerRune lib.lowerTable (toLowerRune lib.lowerTable r)
      = toLowerRune lib.lowerTable r) (f : String) :
    ToLower lib (ToLower lib f) = ToLower lib f := by
  simp only [ToLower, List.map_map]
  congr 1
  apply List.map_congr_left
  intro r _
  exact hidem r

theorem toNat_ofNat_ascii (m : Nat) (h : m < 128) : (Char.ofNat m).toNat = m := by
  have hall : ∀ k : Fin 128, (Char.ofNat k.val).toNat = k.val := by decide
  exact hall ⟨m, h⟩

theorem toLowerRune_id_idempotent (r : Char) :
    toLowerRune id (toLowerRune id r) = toLowerRune id r := by
  unfold toLowerRune
  by_cases h1 : r.toNat ≤ 0x7F
  · by_cases h2 : 65 ≤ r.toNat ∧ r.toNat ≤ 90
    · have e := toNat_ofNat_ascii (r.toNat + 32) (by omega)
      simp only [if_pos h1, if_pos h2, e]
      rw [if_pos (by omega), if_neg (by omega)]
    · simp only [if_pos h1, if_neg h2]
  · simp only [if_neg h1, id]

/-- C13: for every format string `f` and every offset, `GetTimeNow` with
format `f` and with format `strings.ToLower(f)` return the same text and
the same error on the same clock, lower-casing being idempotent (as
`unicode.ToLower` is). -/
theorem GetTimeNow_case_insensitive (lib : Lib)
    (hidem : ∀ r, toLowerRune lib.lowerTable (toLowerRune lib.lowerTable r)
      = toLowerRune lib.lowerTable r) (f : String) (a : Int) (c : Clock) :
    GetTimeNow lib ⟨a, f⟩ c = GetTimeNow lib ⟨a, ToLower lib f⟩ c :=
  GetTimeNow_congr lib f (ToLower lib f) a c (ToLower_idempotent lib hidem f).symm

theorem GetTimeNow_case_insensitive_witness :
    GetTimeNow ⟨fun _ layout => layout, id⟩ ⟨30, "StampMilli"⟩ (Clock.fixed 0) =
      GetTimeNow ⟨fun _ layout => layout, id⟩ ⟨30, "stampmilli"⟩ (Clock.fixed 0) :=
  GetTimeNow_case_insensitive ⟨fun _ layout => layout, id⟩
    toLowerRune_id_idempotent "StampMilli" 30 (Clock.fixed 0)

/-! ## Sign of the offset -/

/-- C14 (the code at the failing inputs): "--5" begins with `-` and is
accepted with the positive offset 300; "+-5" does not begin with `-` and is
accepted with the negative offset -300; "4611686018427387903" has no sign
and is accepted with offset -60. -/
theorem ParseTZ_sign_not_respected :
    ParseTZ "--5" = .ok 300 ∧ ParseTZ "+-5" = .ok (-300) ∧
      ParseTZ "4611686018427387903" = .ok (-60) := by
  decide

/-! ## Malformed splits -/

theorem remainder_cons (input : String) (b0 : Char) (rest : List Char)
    (h : TrimSpace input.data = b0 :: rest) : remainder input = stripSign (b0 :: rest) := by
  simp [remainder, h]

theorem remainder_nil (input : String) (h : TrimSpace input.data = []) : remainder input = [] := by
  simp [remainder, h, stripSign]

theorem ParseTZ_remainder (input : String) (h : remainder input ≠ []) :
    ∃ sign : Int, ParseTZ input =
      if Contains (remainder input) '.' then dotBranch input sign (remainder input)
      else if Contains (remainder input) ':' then colonBranch input sign (remainder input)
      else bareBranch input sign (remainder input) := by
  cases hs : TrimSpace input.data with
  | nil => exact absurd (remainder_nil input hs) h
  | cons b0 rest =>
    rw [ParseTZ_cons input b0 rest hs, remainder_cons input b0 rest hs]
    exact ⟨signOf b0, rfl⟩

theorem dotBranch_empty_part (input : String) (sign : Int) (a b : List Char) (h : '.' ∉ a)
    (hempty : a = [] ∨ b = []) : ∃ e, dotBranch input sign (a ++ '.' :: b) = .err e := by
  rw [dotBranch_parts input sign a b h]
  rcases hempty with rfl | rfl
  · exact ⟨_, rfl⟩
  · cases Atoi a with
    | none => exact ⟨_, rfl⟩
    | some hours => exact ⟨_, rfl⟩

theorem colonBranch_empty_part (input : String) (sign : Int) (a b : List Char) (h : ':' ∉ a)
    (hempty : a = [] ∨ b = []) : ∃ e, colonBranch input sign (a ++ ':' :: b) = .err e := by
  rw [colonBranch_parts input sign a b h]
  rcases hempty with rfl | rfl
  · exact ⟨_, rfl⟩
  · cases Atoi a with
    | none => exact ⟨_, rfl⟩
    | some hours => exact ⟨_, rfl⟩

/-- C15: when the trimmed, sign-stripped remainder of the input holds a
marker (`.` if it holds one, otherwise `:`) and the text before the first
occurrence of the marker or the text after it is empty, `ParseTZ` returns an
error. -/
theorem ParseTZ_malformed_split (input : String) (m : Char) (a b : List Char)
    (hm : m = '.' ∨ (m = ':' ∧ '.' ∉ remainder input))
    (hsplit : remainder input = a ++ m :: b) (hfirst : m ∉ a) (hempty : a = [] ∨ b = []) :
    ∃ e, ParseTZ input = .err e := by
  obtain ⟨sign, hP⟩ := ParseTZ_remainder input (by rw [hsplit]; simp)
  rw [hP]
  rcases hm with rfl | ⟨rfl, hnd⟩
  · have hc : Contains (remainder input) '.' = true := by simp [Contains, hsplit]
    rw [hc, if_pos rfl, hsplit]
    exact dotBranch_empty_part input sign a b hfirst hempty
  · have hc1 : Contains (remainder input) '.' = false := by simp [Contains, hnd]
    have hc2 : Contains (remainder input) ':' = true := by simp [Contains, hsplit]
    rw [hc1, if_neg (by simp), hc2, if_pos rfl, hsplit]
    exact colonBranch_empty_part input sign a b hfirst hempty

theorem ParseTZ_malformed_split_witness :
    (∃ e, ParseTZ "-.5" = .err e) ∧ (∃ e, ParseTZ "5:" = .err e) :=
  ⟨ParseTZ_malformed_split "-.5" '.' [] ['5'] (Or.inl rfl) (by decide) (by decide) (Or.inl rfl),
   ParseTZ_malformed_split "5:" ':' ['5'] [] (Or.inr ⟨rfl, by decide⟩) (by decide) (by decide)
     (Or.inr rfl)⟩

/-! ## Readings of the clock -/

/-- C16 (as amended): `GetTimeNow` reads the clock once for a token that
lower-cases to "rfc3339", "ansic", "stamp" or "stampmilli" and twice for any
other token ("unix" and the unrecognized ones); in both cases the text is
computed from one reading only, the last one made. -/
theorem GetTimeNow_clock_reads (lib : Lib) (cfg : Config) (c : Clock) :
    (ToLower lib cfg.Format ∈ layoutFormats →
        (GetTimeNow lib cfg c).2.reads = c.reads + 1 ∧
        (GetTimeNow lib cfg c).1.1 =
          lib.Format ⟨c.readings c.reads + wrap64 (wrap64 cfg.TimezoneOffsetMinutes * Minute),
            Location.UTC⟩ (layoutOf (ToLower lib cfg.Format))) ∧
      (ToLower lib cfg.Format ∉ layoutFormats →
        (GetTimeNow lib cfg c).2.reads = c.reads + 2 ∧
        (GetTimeNow lib cfg c).1.1 =
          Sprintf_d (Time.Unix ⟨c.readings (c.reads + 1), Location.Local⟩)) := by
  constructor
  · intro h
    rw [GetTimeNow_layout lib cfg c h]
    exact ⟨rfl, rfl⟩
  · intro h
    by_cases hu : ToLower lib cfg.Format = "unix"
    · rw [GetTimeNow_unix lib cfg c hu]
      exact ⟨rfl, rfl⟩
    · have hk : ToLower lib cfg.Format ∉ knownFormats := by
        rw [knownFormats_mem]
        rw [layoutFormats_mem] at h
        tauto
      rw [GetTimeNow_unknown lib cfg c hk]
      exact ⟨rfl, rfl⟩

theorem GetTimeNow_clock_reads_witness :
    (GetTimeNow ⟨fun _ layout => layout, id⟩ ⟨0, "stamp"⟩ (Clock.fixed 0)).2.reads = 1 ∧
      (GetTimeNow ⟨fun _ layout => layout, id⟩ ⟨0, "bogus"⟩ (Clock.fixed 0)).2.reads = 2 :=
  ⟨((GetTimeNow_clock_reads ⟨fun _ layout => layout, id⟩ ⟨0, "stamp"⟩ (Clock.fixed 0)).1
      (by decide)).1,
   ((GetTimeNow_clock_reads ⟨fun _ layout => layout, id⟩ ⟨0, "bogus"⟩ (Clock.fixed 0)).2
      (by decide)).1⟩

/-- C16 (counterexample): on a clock whose successive readings are 0 s,
1 s, 2 s, ..., `GetTimeNow` with format "unix" makes two readings, and the
text it returns is that of the second one. -/
theorem GetTimeNow_unix_reads_twice :
    (GetTimeNow ⟨fun _ layout => layout, id⟩ ⟨0, "unix"⟩
        ⟨fun k => (k : Int) * 1000000000, 0⟩).2.reads = 2 ∧
      (GetTimeNow ⟨fun _ layout => layout, id⟩ ⟨0, "unix"⟩
        ⟨fun k => (k : Int) * 1000000000, 0⟩).1 = ("1", none) := by
  decide

/-! ## The warning of main -/

/-- C17 (the code at the failing input): with `--format UNIX --tz 5` the
chosen format lower-cases to "unix", so `GetTimeNow` ignores the offset, the
timezone input is not empty, and `main` prints no warning. -/
theorem main_no_warning_for_upper_case_unix :
    (Flags.mk "" "5" "UNIX" "unix").warnsTZIgnored = false ∧
      (Flags.mk "" "5" "UNIX" "unix").tzInput = "5" ∧
      ∀ lib, ToLower lib (Flags.mk "" "5" "UNIX" "unix").format = "unix" := by
  refine ⟨by decide, by decide, fun lib => ?_⟩
  show ToLower lib "UNIX" = "unix"
  simp [ToLower, toLowerRune]

/-! ## Two-digit fractions and the colon form -/

theorem Atoi_two_digits (d1 d2 : Fin 10) :
    Atoi [digitChar d1, digitChar d2] = some ((d1.val : Int) * 10 + d2.val) := by
  revert d1 d2; decide

theorem len_two_digits (d1 d2 : Fin 10) : len [digitChar d1, digitChar d2] = 2 := by
  revert d1 d2; decide

theorem two_digit_core (i1 i2 : String) (sign : Int) (R : List Char) (d1 d2 : Fin 10) :
    Outcome.agree
      (if Contains (R ++ '.' :: [digitChar d1, digitChar d2]) '.' then
          dotBranch i1 sign (R ++ '.' :: [digitChar d1, digitChar d2])
        else if Contains (R ++ '.' :: [digitChar d1, digitChar d2]) ':' then
          colonBranch i1 sign (R ++ '.' :: [digitChar d1, digitChar d2])
        else bareBranch i1 sign (R ++ '.' :: [digitChar d1, digitChar d2]))
      (if Contains (R ++ ':' :: [digitChar d1, digitChar d2]) '.' then
          dotBranch i2 sign (R ++ ':' :: [digitChar d1, digitChar d2])
        else if Contains (R ++ ':' :: [digitChar d1, digitChar d2]) ':' then
          colonBranch i2 sign (R ++ ':' :: [digitChar d1, digitChar d2])
        else bareBranch i2 sign (R ++ ':' :: [digitChar d1, digitChar d2])) := by
  have hmm : '.' ∉ [digitChar d1, digitChar d2] := by
    have := not_mem_digitText [d1, d2] '.' (by simp)
    simpa [digitText] using this
  have hmmc : ':' ∉ [digitChar d1, digitChar d2] := by
    have := not_mem_digitText [d1, d2] ':' (by simp)
    simpa [digitText] using this
  have hl := len_two_digits d1 d2
  have hc1 : Contains (R ++ '.' :: [digitChar d1, digitChar d2]) '.' = true := by simp [Contains]
  have hc2 : Contains (R ++ ':' :: [digitChar d1, digitChar d2]) ':' = true := by simp [Contains]
  rw [hc1, if_pos rfl]
  by_cases hdot : '.' ∈ R
  · -- a dot already in the hour text: both inputs are malformed
    obtain ⟨a, b, rfl, ha⟩ := mem_split '.' R hdot
    have hc3 : Contains (a ++ '.' :: b ++ ':' :: [digitChar d1, digitChar d2]) '.' = true := by
      simp [Contains]
    rw [hc3, if_pos rfl]
    have e1 : a ++ '.' :: b ++ '.' :: [digitChar d1, digitChar d2]
        = a ++ '.' :: (b ++ '.' :: [digitChar d1, digitChar d2]) := by simp
    have e2 : a ++ '.' :: b ++ ':' :: [digitChar d1, digitChar d2]
        = a ++ '.' :: (b ++ ':' :: [digitChar d1, digitChar d2]) := by simp
    rw [e1, e2]
    have hl1 : len ('.' :: [digitChar d1, digitChar d2]) = 3 := by
      rw [len_cons, hl]; rfl
    have hl2 : len (':' :: [digitChar d1, digitChar d2]) = 3 := by
      rw [len_cons, hl]; rfl
    obtain ⟨x1, h1⟩ := dotBranch_second_dot i1 sign a b ('.' :: [digitChar d1, digitChar d2]) ha
      (by omega) (fun h => by omega)
    obtain ⟨x2, h2⟩ := dotBranch_second_dot i2 sign a b (':' :: [digitChar d1, digitChar d2]) ha
      (by omega) (fun h => by omega)
    rw [h1, h2]
    exact agree_err _ _
  · have hc3 : Contains (R ++ ':' :: [digitChar d1, digitChar d2]) '.' = false := by
      simp only [Contains, decide_eq_false_iff_not, List.mem_append]
      rintro (h | h)
      · exact hdot h
      · rcases List.mem_cons.mp h with h | h
        · exact absurd h (by decide)
        · exact hmm h
    rw [hc3, if_neg (by simp), hc2, if_pos rfl]
    rw [dotBranch_parts i1 sign R _ hdot]
    by_cases hcol : ':' ∈ R
    · -- a colon already in the hour text: both inputs are malformed
      rw [Atoi_none_of_colon R hcol]
      obtain ⟨a, b, rfl, ha⟩ := mem_split ':' R hcol
      have e2 : a ++ ':' :: b ++ ':' :: [digitChar d1, digitChar d2]
          = a ++ ':' :: (b ++ ':' :: [digitChar d1, digitChar d2]) := by simp
      rw [e2, colonBranch_parts i2 sign a _ ha,
        Atoi_none_of_colon (b ++ ':' :: [digitChar d1, digitChar d2]) (by simp)]
      cases Atoi a <;> exact agree_err _ _
    · rw [colonBranch_parts i2 sign R _ hcol]
      cases Atoi R with
      | none => exact agree_err _ _
      | some hours =>
        simp only [hl, Atoi_two_digits]
        rw [if_neg (by omega), if_pos trivial]
        split
        · exact agree_err _ _
        · exact agree_rangeCheck _

/-- C18: for every string `h` and every two decimal digits `mm`, `ParseTZ`
on `h . mm` and on `h : mm` agree: both return an error, or both return the
same number of minutes. -/
theorem ParseTZ_two_digit_dot_is_colon (h : String) (d1 d2 : Fin 10) :
    Outcome.agree (ParseTZ (h ++ ⟨'.' :: [digitChar d1, digitChar d2]⟩))
      (ParseTZ (h ++ ⟨':' :: [digitChar d1, digitChar d2]⟩)) := by
  have hs := digitChar_not_space d2
  have t1 : TrimSpace (h ++ ⟨'.' :: [digitChar d1, digitChar d2]⟩).data
      = List.dropWhile isSpace h.data ++ '.' :: [digitChar d1, digitChar d2] := by
    have := TrimSpace_append h.data [digitChar d1] '.' (digitChar d2) (by decide) hs
    simpa [String.data_append] using this
  have t2 : TrimSpace (h ++ ⟨':' :: [digitChar d1, digitChar d2]⟩).data
      = List.dropWhile isSpace h.data ++ ':' :: [digitChar d1, digitChar d2] := by
    have := TrimSpace_append h.data [digitChar d1] ':' (digitChar d2) (by decide) hs
    simpa [String.data_append] using this
  cases hL : List.dropWhile isSpace h.data with
  | nil =>
    rw [hL] at t1 t2
    rw [ParseTZ_cons _ '.' _ t1, ParseTZ_cons _ ':' _ t2]
    exact two_digit_core _ _ 1 [] d1 d2
  | cons c L =>
    rw [hL] at t1 t2
    rw [ParseTZ_cons _ c (L ++ '.' :: [digitChar d1, digitChar d2]) t1,
      ParseTZ_cons _ c (L ++ ':' :: [digitChar d1, digitChar d2]) t2,
      stripSign_append, stripSign_append]
    exact two_digit_core _ _ _ _ d1 d2

/-! ## Absence of panics -/

theorem SplitN_length_two (s : List Char) (sep : Char) (h : Contains s sep = true) :
    (SplitN s sep 2).length = 2 := by
  obtain ⟨a, b, rfl, ha⟩ := mem_split sep s ((Contains_iff s sep).mp h)
  rw [SplitN_two sep a b ha]
  rfl

theorem rangeCheck_cases (t : Int) : (∃ m, rangeCheck t = .ok m) ∨ ∃ e, rangeCheck t = .err e := by
  unfold rangeCheck
  split
  · exact Or.inr ⟨_, rfl⟩
  · exact Or.inl ⟨_, rfl⟩

theorem dotBranch_returns (input : String) (sign : Int) (s : List Char)
    (h : Contains s '.' = true) :
    (∃ m, dotBranch input sign s = .ok m) ∨ ∃ e, dotBranch input sign s = .err e := by
  obtain ⟨a, b, rfl, ha⟩ := mem_split '.' s ((Contains_iff s '.').mp h)
  rw [dotBranch_parts input sign a b ha]
  repeat' split
  all_goals first
    | exact rangeCheck_cases _
    | exact Or.inr ⟨_, rfl⟩

theorem colonBranch_returns (input : String) (sign : Int) (s : List Char)
    (h : Contains s ':' = true) :
    (∃ m, colonBranch input sign s = .ok m) ∨ ∃ e, colonBranch input sign s = .err e := by
  obtain ⟨a, b, rfl, ha⟩ := mem_split ':' s ((Contains_iff s ':').mp h)
  rw [colonBranch_parts input sign a b ha]
  repeat' split
  all_goals first
    | exact rangeCheck_cases _
    | exact Or.inr ⟨_, rfl⟩

theorem bareBranch_returns (input : String) (sign : Int) (s : List Char) :
    (∃ m, bareBranch input sign s = .ok m) ∨ ∃ e, bareBranch input sign s = .err e := by
  unfold bareBranch
  split
  · exact Or.inr ⟨_, rfl⟩
  · exact rangeCheck_cases _

/-- C19: on every input `ParseTZ` returns, an offset or an error, without a
panic; and whenever the text holds the separator (`.` or `:`), splitting on
it with `strings.SplitN(s, sep, 2)` gives exactly two parts, so the test
`len(parts) != 2` is false at both split sites and their "invalid tz format"
returns are never taken. -/
theorem ParseTZ_total_panic_free (input : String) :
    ((∃ m, ParseTZ input = .ok m) ∨ ∃ e, ParseTZ input = .err e) ∧
      ParseTZ input ≠ .indexPanic ∧
      (∀ s : List Char, Contains s '.' = true → (SplitN s '.' 2).length = 2) ∧
      (∀ s : List Char, Contains s ':' = true → (SplitN s ':' 2).length = 2) := by
  have hret : (∃ m, ParseTZ input = .ok m) ∨ ∃ e, ParseTZ input = .err e := by
    cases hs : TrimSpace input.data with
    | nil => exact Or.inl ⟨0, ParseTZ_nil input hs⟩
    | cons b0 rest =>
      rw [ParseTZ_cons input b0 rest hs]
      by_cases h1 : Contains (stripSign (b0 :: rest)) '.' = true
      · rw [if_pos h1]; exact dotBranch_returns _ _ _ h1
      · rw [if_neg h1]
        by_cases h2 : Contains (stripSign (b0 :: rest)) ':' = true
        · rw [if_pos h2]; exact colonBranch_returns _ _ _ h2
        · rw [if_neg h2]; exact bareBranch_returns _ _ _
  refine ⟨hret, ?_, fun s h => SplitN_length_two s '.' h, fun s h => SplitN_length_two s ':' h⟩
  rcases hret with ⟨m, hm⟩ | ⟨e, he⟩
  · rw [hm]; simp
  · rw [he]; simp

end timenow
